import Mathlib

/-!
Verification of the fine-grained reactivity runtime (signals / computed /
effects / scheduler with atomic transactions).

Each section shallowly embeds one subsystem of the source:
* `Reactivity.Cleanups` — `drainCleanups` from `effect.ts`.
* `Reactivity.Obs` — `withObserver` from `graph.ts` and the
  `activeEffect` scope of `EffectInstance.run`.
* `Reactivity.Computed` — `computed`/`recompute`/`get`/`peek` from
  `5_computed/computed.ts`.
* `Reactivity.Graph` — `link`/`unlink` and the operations that mutate
  the dependency graph.
* `Reactivity.Sched` — the scheduler (`scheduler.ts`): `scheduleJob`,
  `flushJobs`, `batch`-depth accounting, and `atomic` with its write-log
  commit/rollback machinery.
-/

namespace Reactivity

/-- Node kinds, from `graph.ts` (`type Kind = 'signal' | 'computed' | 'effect'`). -/
inductive Kind where
  | signal
  | computed
  | effect
deriving DecidableEq, Repr

/-! ## Cleanups (`drainCleanups` in `effect.ts`)

A cleanup callback is modelled by an identifier together with a flag
saying whether invoking it throws.  `drainFrom` mirrors the loop
`for (let i = list.length - 1; i >= 0; i--) { try cb() catch onError(e) }`:
the recursion first drains the tail of the list (the callbacks appended
later) and only then the head, so the last-appended callback runs first.
The returned pair collects the identifiers executed (in execution order)
and the errors caught; the function is total, mirroring the per-callback
`try`/`catch` in the source. -/

namespace Cleanups

/-- A cleanup callback: its identifier and whether calling it throws. -/
structure Cleanup where
  id : Nat
  throws : Bool
deriving DecidableEq, Repr

/-- Invoking one callback: `.error` iff the callback throws. -/
def runCb (c : Cleanup) : Except Nat Unit :=
  if c.throws then .error c.id else .ok ()

/-- The downward loop of `drainCleanups`: elements later in the list run
first; every exception is caught and collected. Returns
(executed ids in execution order, caught error ids in order). -/
def drainFrom : List Cleanup → List Nat × List Nat
  | [] => ([], [])
  | c :: rest =>
    let (ex, er) := drainFrom rest
    match runCb c with
    | .ok _ => (ex ++ [c.id], er)
    | .error e => (ex ++ [c.id], er ++ [e])

/-- `drainCleanups(list)`: run all callbacks back-to-front, then
`list.length = 0`.  The third component is the list after the drain. -/
def drainCleanups (l : List Cleanup) : List Nat × List Nat × List Cleanup :=
  let (ex, er) := drainFrom l
  (ex, er, [])

end Cleanups

/-! ## Observer scopes (`withObserver` in `graph.ts`, `activeEffect` in `effect.ts`)

The two process-wide slots.  A user function is modelled as an arbitrary
state transformer that either returns a value or throws: this covers
anything the body can do, including nested scopes. -/

namespace Obs

/-- The two ambient slots: `currentObserver` (graph.ts) and
`activeEffect` (effect.ts), holding node / effect identifiers. -/
structure ObsState where
  currentObserver : Option Nat
  activeEffect : Option Nat
deriving DecidableEq, Repr

/-- A user function body: any state transformer producing either a
result (`Except.ok`) or a thrown error (`Except.error`). -/
def Body (ε α : Type) : Type := ObsState → Except ε α × ObsState

/-- `withObserver(obs, fn)` from `graph.ts`: save `currentObserver`, set
it to `obs`, run `fn`, and in `finally` restore the saved value — on the
return path and on the throw path alike. -/
def withObserver (obs : Nat) (fn : Body ε α) (s : ObsState) :
    Except ε α × ObsState :=
  let prev := s.currentObserver
  let (r, s1) := fn { s with currentObserver := some obs }
  (r, { s1 with currentObserver := prev })

/-- The `activeEffect` scope of `EffectInstance.run` (`effect.ts`):
`activeEffect = this; try { withObserver(this.node, this.fn) } finally
{ activeEffect = null }`.  Note the `finally` writes `null`, not the
previously saved value. -/
def effRunScope (self : Nat) (fn : Body ε α) (s : ObsState) :
    Except ε α × ObsState :=
  let s1 := { s with activeEffect := some self }
  let (r, s2) := withObserver self fn s1
  (r, { s2 with activeEffect := none })

end Obs

/-! ## Computed (`src/5_computed/computed.ts`)

The state of one computed node.  `value : Option Int` models the `T`
slot that is initialised to `undefined` (`none` is the undefined
placeholder); the default comparator `Object.is` becomes equality on
`Int`.  A run of the user function `fn` is abstracted by `FnBeh`: the
dependency reads that complete (each one `track`ed, i.e. linked into
`deps`) followed by either a returned value or a thrown error.
`fnCalls` is a history variable counting invocations of `fn`. -/

namespace Computed

/-- State of a computed node (`computed.ts` lines 28-44). -/
structure CompState where
  value : Option Int
  stale : Bool
  computing : Bool
  hasValue : Bool
  deps : List Nat
  fnCalls : Nat
deriving DecidableEq, Repr

/-- Errors a computed read can raise. -/
inductive CErr where
  | cycle
  | user (tag : Nat)
deriving DecidableEq, Repr

/-- Outcome of one invocation of the user function: a returned value or
a thrown error tag. -/
inductive FnRes where
  | ok (v : Int)
  | err (tag : Nat)
deriving DecidableEq, Repr

/-- One run of the user function: the reads tracked before the outcome,
and the outcome (returned value or thrown error tag). -/
structure FnBeh where
  reads : List Nat
  result : FnRes
deriving DecidableEq, Repr

/-- Result of a computed read: the value, or the propagated error. -/
inductive ReadRes where
  | ok (v : Option Int)
  | err (e : CErr)
deriving DecidableEq, Repr

/-- The node as built by `computed(fn)`: `value` undefined, `stale`
true, `computing` false, `hasValue` false, no edges. -/
def computedInit : CompState :=
  { value := none, stale := true, computing := false, hasValue := false
    deps := [], fnCalls := 0 }

/-- `recompute` (`computed.ts` lines 46-62).  Mirrors the source
statement by statement; note the source has no `try`/`finally`, so on a
throw the fields set before the throw (`computing := true`, the rebuilt
`deps`) keep their values.  The second component is the propagated
error, if any. -/
def recompute (beh : FnBeh) (s : CompState) : CompState × Option CErr :=
  if s.computing then (s, some .cycle)
  else
    let s1 : CompState :=
      { s with computing := true, deps := beh.reads, fnCalls := s.fnCalls + 1 }
    match beh.result with
    | .err e => (s1, some (.user e))
    | .ok v =>
      let s2 := if !s1.hasValue || !(s1.value == some v)
        then { s1 with value := some v, hasValue := true } else s1
      ({ s2 with stale := false, computing := false }, none)

/-- `get` (`computed.ts` lines 64-68), read with no ambient observer (so
`track(node)` is a no-op).  Returns the final node state and either the
value or the propagated error. -/
def getC (beh : FnBeh) (s : CompState) : CompState × ReadRes :=
  if s.stale || !s.hasValue then
    match recompute beh s with
    | (s1, some e) => (s1, .err e)
    | (s1, none) => (s1, .ok s1.value)
  else (s, .ok s.value)

/-- `peek` (`computed.ts` line 70): `() => node.value` — no tracking, no
recompute, no mutation. -/
def peek (s : CompState) : CompState × Option Int := (s, s.value)

end Computed

/-! ## Graph (`graph.ts`)

Nodes are identified by `Nat`.  `nodes` is the set of node identifiers
created so far (in the source a node exists iff some caller holds a
reference to the object; operations are only ever invoked on existing
nodes, which the step function enforces with membership guards).
`deps n` / `subs n` are the two edge sets of node `n`. -/

/-- JS `Set.add`: append the element if it is not already present.
(JS sets iterate in insertion order, so they are modelled as
duplicate-free lists.) -/
def setAdd (x : Nat) (l : List Nat) : List Nat :=
  if x ∈ l then l else l ++ [x]

/-- JS `Set.delete`: remove the element (a JS set holds it at most
once). -/
def setDel (x : Nat) (l : List Nat) : List Nat :=
  l.erase x

namespace Graph

/-- Graph state: created nodes, their kinds, and the two edge maps
(each a JS `Set`, modelled as an insertion-ordered duplicate-free
list). -/
structure GraphState where
  nodes : List Nat
  kind : Nat → Kind
  deps : Nat → List Nat
  subs : Nat → List Nat

/-- Graph errors: `link`/`subscribe` with a signal as source. -/
inductive GErr where
  | illegalEdge
deriving DecidableEq, Repr

/-- `link(from, to)` (`graph.ts` lines 9-13): throws when the source is
a signal, otherwise inserts the bidirectional edge. The throw happens
before any mutation. -/
def link (f t : Nat) (s : GraphState) : Except GErr GraphState :=
  if s.kind f = .signal then .error .illegalEdge
  else .ok { s with
    deps := Function.update s.deps f (setAdd t (s.deps f)),
    subs := Function.update s.subs t (setAdd f (s.subs t)) }

/-- `link` as a state transformer: a thrown `IllegalEdge` leaves the
state unchanged (the source throws before mutating). -/
def linkT (f t : Nat) (s : GraphState) : GraphState :=
  match link f t s with
  | .ok s1 => s1
  | .error _ => s

/-- `unlink(from, to)` (`graph.ts` lines 15-18). -/
def unlink (f t : Nat) (s : GraphState) : GraphState :=
  { s with
    deps := Function.update s.deps f (setDel t (s.deps f)),
    subs := Function.update s.subs t (setDel f (s.subs t)) }

/-- Unlink a node from each dependency in the list: the snapshot loop
`for (const d of [...node.deps]) unlink(node, d)`. -/
def unlinkAll (n : Nat) (l : List Nat) (s : GraphState) : GraphState :=
  l.foldl (fun acc d => unlink n d acc) s

/-- Link an observer to each read dependency in order: the `track`
calls issued while the body runs under `withObserver`.  Reads of ids
that are not live nodes do not occur in the source (the body holds
references); they are guarded to no-ops. -/
def linkReads (n : Nat) (reads : List Nat) (s : GraphState) : GraphState :=
  reads.foldl (fun acc r => if r ∈ acc.nodes then linkT n r acc else acc) s

/-- The public operations that mutate the graph. `create` covers
`signal`/`computed`/`effect` node construction (a fresh object with
empty `deps`/`subs`); `track` is a read under `withObserver`;
`recompute` and `run` unlink the old dependencies and re-track the
reads of the body; the two dispose operations mirror `computed`'s
`dispose` and `EffectInstance.dispose`. -/
inductive GOp where
  | create (n : Nat) (k : Kind)
  | link (f t : Nat)
  | unlink (f t : Nat)
  | track (obs dep : Nat)
  | recompute (c : Nat) (reads : List Nat)
  | run (e : Nat) (reads : List Nat)
  | disposeComputed (c : Nat)
  | disposeEffect (e : Nat)

/-- Step function for one public operation.  Membership guards model
that the source can only be called with node objects that exist. -/
def stepOp (op : GOp) (s : GraphState) : GraphState :=
  match op with
  | .create n k =>
    if n ∈ s.nodes then s
    else { s with nodes := n :: s.nodes,
                  kind := Function.update s.kind n k,
                  deps := Function.update s.deps n [],
                  subs := Function.update s.subs n [] }
  | .link f t => if f ∈ s.nodes ∧ t ∈ s.nodes then linkT f t s else s
  | .unlink f t => if f ∈ s.nodes ∧ t ∈ s.nodes then unlink f t s else s
  | .track obs dep =>
    if obs ∈ s.nodes ∧ dep ∈ s.nodes then linkT obs dep s else s
  | .recompute c reads =>
    if c ∈ s.nodes then linkReads c reads (unlinkAll c (s.deps c) s)
    else s
  | .run e reads =>
    if e ∈ s.nodes then linkReads e reads (unlinkAll e (s.deps e) s)
    else s
  | .disposeComputed c =>
    if c ∈ s.nodes then
      let s1 := unlinkAll c (s.deps c) s
      let s2 := (s1.subs c).foldl (fun acc u => unlink u c acc) s1
      { s2 with deps := Function.update s2.deps c [],
                subs := Function.update s2.subs c [] }
    else s
  | .disposeEffect e =>
    if e ∈ s.nodes then
      let s1 := unlinkAll e (s.deps e) s
      { s1 with deps := Function.update s1.deps e [] }
    else s

/-- Execute a list of public operations. -/
def execOps (ops : List GOp) (s : GraphState) : GraphState :=
  ops.foldl (fun acc op => stepOp op acc) s

/-- The empty initial graph. -/
def initGraph : GraphState :=
  { nodes := [], kind := fun _ => .effect, deps := fun _ => [], subs := fun _ => [] }

/-- The graph invariant: the edge bijection, signals have no
dependencies, every edge endpoint is a live node, and the edge lists
are genuine sets (duplicate-free, as JS `Set`s are). -/
structure Inv (s : GraphState) : Prop where
  bij : ∀ u v, u ∈ s.deps v ↔ v ∈ s.subs u
  sigNoDeps : ∀ n, s.kind n = .signal → s.deps n = []
  edgeLive : ∀ u v, u ∈ s.deps v → u ∈ s.nodes ∧ v ∈ s.nodes
  nodupDeps : ∀ n, (s.deps n).Nodup
  nodupSubs : ∀ n, (s.subs n).Nodup

end Graph

/-! ## Scheduler (`scheduler.ts`, the atomic-transaction version)

The scheduler state bundles the module-level variables of
`scheduler.ts` (`queue`, `scheduled`, `batchDepth`, `atomicDepth`,
`atomicLogs`, `muted`) together with the node fields the scheduler
touches (`value`, `kind`, `subs`, the computed `stale` flags, job
`disposed` flags).  `atomicDepth` is represented implicitly as
`frames.length` (the source maintains `atomicLogs.length == atomicDepth`).

Specification-only history variables (they never influence the
executable behaviour, they only record it):
* `Frame.snap` — the full value map at the moment the scope was entered;
* `micro` — how many `queueMicrotask(flushJobs)` calls have been issued;
* `ran` — which jobs have been executed by `flushJobs`;
* `written` — which nodes have been written by `signal.set`.

A job's body is abstracted by `spawn j`: the jobs that running `j`
schedules (an effect body writing signals schedules their subscribers). -/

namespace Sched

/-- One atomic write log (`WriteLog`, an insertion-ordered `Map` from
node to first-seen previous value) plus the `snap` history variable. -/
structure Frame where
  log : List (Nat × Int)
  snap : Nat → Int

/-- Scheduler state. -/
structure St where
  value : Nat → Int
  kind : Nat → Kind
  subsOf : Nat → List Nat
  staleOf : Nat → Bool
  disposedOf : Nat → Bool
  spawn : Nat → List Nat
  nodes : List Nat
  queue : List Nat
  scheduled : Bool
  batchDepth : Nat
  muted : Nat
  frames : List Frame
  micro : Nat
  ran : List Nat
  written : List Nat

/-- Scheduler errors. -/
inductive SErr where
  | infiniteLoop
  | user (tag : Nat)
deriving DecidableEq, Repr

/-- `Map.get` on a write log: the value of the first entry for `n`. -/
def logFind (n : Nat) : List (Nat × Int) → Option Int
  | [] => none
  | p :: rest => if p.1 = n then some p.2 else logFind n rest

/-- `scheduleJob(job)` (`scheduler.ts` lines 20-28): ignore disposed
jobs and anything during rollback muting; otherwise insert into the
queue and, outside a batch with no flush pending, mark `scheduled` and
enqueue one `flushJobs` microtask. -/
def scheduleJob (j : Nat) (s : St) : St :=
  if s.disposedOf j then s
  else if s.muted > 0 then s
  else
    let s1 := { s with queue := setAdd j s.queue }
    if s1.scheduled = false ∧ s1.batchDepth = 0 then
      { s1 with scheduled := true, micro := s1.micro + 1 }
    else s1

mutual

/-- `markStale(node)` (`computed.ts` lines 8-22): mark a non-stale
computed stale and propagate to its subscribers — recursively to
computeds, via `scheduleJob` to effects.  `fuel` bounds the recursion
depth; since each recursive step first marks a previously non-stale
computed, the source recursion never exceeds the number of computed
nodes, so any fuel larger than that evaluates exactly as the source. -/
def markStaleF (fuel : Nat) (n : Nat) (s : St) : St :=
  match fuel with
  | 0 => s
  | Nat.succ fuel1 =>
    if s.kind n ≠ .computed then s
    else if s.staleOf n then s
    else
      let s1 := { s with staleOf := Function.update s.staleOf n true }
      markStaleSubs fuel1 (s1.subsOf n) s1
termination_by (fuel, 0)

/-- The propagation loop inside `markStale`: walk the subscriber list,
recursing into computeds and scheduling effects. -/
def markStaleSubs (fuel : Nat) (l : List Nat) (s : St) : St :=
  match l with
  | [] => s
  | sub :: rest =>
    let s2 :=
      if s.kind sub = .computed then markStaleF fuel sub s
      else if s.kind sub = .effect then scheduleJob sub s
      else s
    markStaleSubs fuel rest s2
termination_by (fuel, l.length + 1)

end

/-- `markStale` with enough fuel for the source behaviour (see
`markStaleF`). -/
def markStale (n : Nat) (s : St) : St :=
  markStaleF (s.nodes.length + 1) n s

/-- `recordAtomicWrite(node, prev)` (`scheduler.ts` lines 55-59):
first-seen-wins insertion into the innermost write log; no-op when no
atomic scope is active. -/
def recordAtomicWrite (n : Nat) (prev : Int) (s : St) : St :=
  match s.frames with
  | [] => s
  | f :: rest =>
    if (logFind n f.log).isSome then s
    else { s with frames := { f with log := f.log ++ [(n, prev)] } :: rest }

/-- Modelled from the spec: the atomic-aware `signal.set` of §4.4 (the
evolved `signal.ts` is not under `src/`; only its tests and callers
are).  Steps: equality gate with the default comparator; if inside an
atomic scope, `recordAtomicWrite(self, current)`; write the value; then
for each subscriber, `markStale` computeds and `schedule()` effects.
`written` is a history variable recording the write. -/
def setSig (n : Nat) (v : Int) (s : St) : St :=
  if s.value n = v then s
  else
    let s1 := if s.frames.length > 0 then recordAtomicWrite n (s.value n) s else s
    let s2 := { s1 with value := Function.update s1.value n v,
                        written := s1.written ++ [n] }
    markStaleSubs (s2.nodes.length + 1) (s2.subsOf n) s2

/-- The updater argument of `set`: a plain value or a function of the
previous value. -/
inductive Upd where
  | val (v : Int)
  | fn (f : Int → Int)

/-- `typeof next === 'function' ? next(node.value) : next`. -/
def resolveUpd (u : Upd) (cur : Int) : Int :=
  match u with
  | .val v => v
  | .fn f => f cur

/-- `set(next)` including the updater form. -/
def setSigU (n : Nat) (u : Upd) (s : St) : St :=
  setSig n (resolveUpd u (s.value n)) s

/-- Running one job from the flush loop: `job.run()` — a disposed job
returns immediately; otherwise the body runs (recorded in `ran`) and
schedules its `spawn` jobs. -/
def runJob (j : Nat) (s : St) : St :=
  if s.disposedOf j then s
  else
    let s1 := { s with ran := s.ran ++ [j] }
    (s1.spawn j).foldl (fun acc k => scheduleJob k acc) s1

/-- Run one drained snapshot of the queue. -/
def runJobs (l : List Nat) (s : St) : St :=
  l.foldl (fun acc j => runJob j acc) s

/-- The `while (queue.size)` loop of `flushJobs` (`scheduler.ts` lines
130-139).  `fuel` is `10000 - (guard - 1)`: the source throws once
`++guard > 10000`, i.e. after completing round 10001, which is the
round entered when `fuel = 0`. -/
def flushLoop (fuel : Nat) (s : St) : St × Option SErr :=
  if s.queue = [] then (s, none)
  else
    let snapshot := s.queue
    let s1 := { s with queue := [] }
    let s2 := runJobs snapshot s1
    match fuel with
    | 0 => (s2, some .infiniteLoop)
    | Nat.succ fuel1 => flushLoop fuel1 s2

/-- `flushJobs` (`scheduler.ts` lines 130-139). -/
def flushJobs (s : St) : St × Option SErr :=
  flushLoop 10000 { s with scheduled := false }

/-- One drain round of the flush loop, for stating the guard bound. -/
def drainRound (s : St) : St :=
  runJobs s.queue { s with queue := [] }

/-- `k` drain rounds. -/
def iterRound : Nat → St → St
  | 0, s => s
  | Nat.succ k, s => iterRound k (drainRound s)

/-- Entering `atomic(fn)` (`scheduler.ts` lines 74-76): `batchDepth++`,
`atomicDepth++`, push a fresh write log.  The frame records the value
map at entry in its history variable. -/
def atomicEnter (s : St) : St :=
  { s with batchDepth := s.batchDepth + 1,
           frames := { log := [], snap := s.value } :: s.frames }

/-- `mergeChildIntoParent(child, parent)` (`scheduler.ts` lines 65-69):
insert each child entry the parent does not already have. -/
def mergeFS (child parent : List (Nat × Int)) : List (Nat × Int) :=
  child.foldl (fun acc p => if (logFind p.1 acc).isSome then acc else acc ++ [p]) parent

/-- `exitCommit` (`scheduler.ts` lines 78-86) without the final flush:
pop the log, merge it into the parent if one exists, `batchDepth--`. -/
def exitCommitCore (s : St) : St :=
  match s.frames with
  | [] => s
  | f :: rest =>
    let frames1 := match rest with
      | [] => ([] : List Frame)
      | g :: rest2 => { g with log := mergeFS f.log g.log } :: rest2
    { s with frames := frames1, batchDepth := s.batchDepth - 1 }

/-- `exitCommit` including `if (batchDepth === 0) flushJobs()`. -/
def exitCommit (s : St) : St × Option SErr :=
  let s1 := exitCommitCore s
  if s1.batchDepth = 0 then flushJobs s1 else (s1, none)

/-- The rollback loop body for one logged node (`scheduler.ts` lines
93-100): `writeNodeValue(node, prev)` and, for signal nodes, `markStale`
on each computed subscriber (effects are not scheduled). -/
def restoreEntry (p : Nat × Int) (s : St) : St :=
  let s1 := { s with value := Function.update s.value p.1 p.2 }
  if s1.kind p.1 = .signal then
    (s1.subsOf p.1).foldl
      (fun acc sub => if acc.kind sub = .computed then markStale sub acc else acc) s1
  else s1

/-- Restore every logged node in iteration order. -/
def restoreLog (log : List (Nat × Int)) (s : St) : St :=
  log.foldl (fun acc p => restoreEntry p acc) s

/-- `exitRollback` (`scheduler.ts` lines 88-107): pop the log,
`atomicDepth--`, `muted++`, restore all logged values (marking computed
subscribers stale), clear the queue, clear `scheduled`, `muted--`
(in `finally`), `batchDepth--`.  No flush happens. -/
def exitRollback (s : St) : St :=
  match s.frames with
  | [] => s
  | f :: rest =>
    let s1 := { s with frames := rest, muted := s.muted + 1 }
    let s2 := restoreLog f.log s1
    let s3 := { s2 with queue := [], scheduled := false }
    { s3 with muted := s3.muted - 1, batchDepth := s3.batchDepth - 1 }

/-- Client actions available inside an atomic scope's `fn`: a signal
write, an effect schedule, or a nested `atomic(fn)` call.  For the
nested call, `fail` says whether the nested `fn` throws (with that
error tag) after its body, and `caught` whether the client wrapped the
nested call in `try`/`catch` (swallowing the rethrown error) or lets
it propagate, aborting the remaining actions. -/
inductive Act where
  | set (n : Nat) (u : Upd)
  | schedule (j : Nat)
  | atomicDo (body : List Act) (fail : Option Nat) (caught : Bool)

/-- Flat actions: no nested atomic scope. -/
def Act.isFlat : Act → Bool
  | .set _ _ => true
  | .schedule _ => true
  | .atomicDo _ _ _ => false

mutual

/-- Execute one client action.  The second component is an error
propagating out of the action (aborting the actions after it), exactly
as an uncaught synchronous throw does in the source. -/
def runAct (a : Act) (s : St) : St × Option SErr :=
  match a with
  | .set n u => (setSigU n u s, none)
  | .schedule j => (scheduleJob j s, none)
  | .atomicDo body fail caught =>
    let s1 := atomicEnter s
    let p := runActs body s1
    let q : St × Option SErr :=
      match p.2, fail with
      | some er, _ => (exitRollback p.1, some er)
      | none, some tag => (exitRollback p.1, some (.user tag))
      | none, none => exitCommit p.1
    if caught then (q.1, none) else q

/-- Execute a list of client actions, stopping at the first
propagating error. -/
def runActs (l : List Act) (s : St) : St × Option SErr :=
  match l with
  | [] => (s, none)
  | a :: rest =>
    let p := runAct a s
    match p.2 with
    | none => runActs rest p.1
    | some e => (p.1, some e)

end

/-- Top-level `atomic(fn)` where `fn` runs `body` and then throws
`tag` (or `body` itself aborts with a propagating error): the
`catch (e) { exitRollback(); throw e; }` path of `scheduler.ts` lines
119-122. -/
def atomicFail (body : List Act) (tag : Nat) (s : St) : St × Option SErr :=
  let p := runActs body (atomicEnter s)
  match p.2 with
  | some er => (exitRollback p.1, some er)
  | none => (exitRollback p.1, some (.user tag))

/-- The innermost write log after running `body` inside `atomic` from
state `s`. -/
def scopeLog (body : List Act) (s : St) : List (Nat × Int) :=
  match (runActs body (atomicEnter s)).1.frames with
  | f :: _ => f.log
  | [] => []

/-- Correctness of the write-log stack (the key internal invariant):
for each frame, every logged value is the value the node had when the
frame's scope was entered, and every unlogged node still holds its
scope-entry value; the tail condition is stated relative to that
frame's entry snapshot. -/
def logsConsistent : (Nat → Int) → List Frame → Prop
  | _, [] => True
  | v, f :: rest =>
    (∀ p ∈ f.log, p.2 = f.snap p.1) ∧
    (∀ n, logFind n f.log = none → v n = f.snap n) ∧
    logsConsistent f.snap rest

/-- What one client action inside an atomic scope preserves: the node
environment, the batch/atomic bookkeeping, the frame snapshots, the
jobs run so far, the pending-microtask count (inside a batch), and the
write-log correctness invariant. -/
structure ScopeStep (s t : St) : Prop where
  kindEq : t.kind = s.kind
  subsEq : t.subsOf = s.subsOf
  dispEq : t.disposedOf = s.disposedOf
  spawnEq : t.spawn = s.spawn
  nodesEq : t.nodes = s.nodes
  batchEq : t.batchDepth = s.batchDepth
  mutedEq : t.muted = s.muted
  framesLen : t.frames.length = s.frames.length
  framesSnap : t.frames.map Frame.snap = s.frames.map Frame.snap
  ranEq : t.ran = s.ran
  microEq : 0 < s.batchDepth → t.micro = s.micro
  lc : logsConsistent s.value s.frames → logsConsistent t.value t.frames

/-- Everything the pure scheduling operations (`scheduleJob`,
`markStale`) leave untouched: they only move `queue`, `scheduled`,
`staleOf` and (outside batches and rollback muting) `micro`. -/
structure Quiet (s t : St) : Prop where
  valueEq : t.value = s.value
  kindEq : t.kind = s.kind
  subsEq : t.subsOf = s.subsOf
  dispEq : t.disposedOf = s.disposedOf
  spawnEq : t.spawn = s.spawn
  nodesEq : t.nodes = s.nodes
  batchEq : t.batchDepth = s.batchDepth
  mutedEq : t.muted = s.muted
  framesEq : t.frames = s.frames
  ranEq : t.ran = s.ran
  writtenEq : t.written = s.written
  microEq : 0 < s.batchDepth ∨ 0 < s.muted → t.micro = s.micro
  queueMono : ∀ x, x ∈ s.queue → x ∈ t.queue
  staleMono : ∀ m, s.staleOf m = true → t.staleOf m = true

/-- The parts of the state the rollback restore loop leaves untouched:
everything except `value`, `queue`, `scheduled`, `staleOf` (and `micro`,
which it can only touch outside batches and muting). -/
structure SameEnv (s t : St) : Prop where
  kindEq : t.kind = s.kind
  subsEq : t.subsOf = s.subsOf
  dispEq : t.disposedOf = s.disposedOf
  spawnEq : t.spawn = s.spawn
  nodesEq : t.nodes = s.nodes
  batchEq : t.batchDepth = s.batchDepth
  mutedEq : t.muted = s.muted
  framesEq : t.frames = s.frames
  ranEq : t.ran = s.ran
  writtenEq : t.written = s.written
  microEq : 0 < s.batchDepth ∨ 0 < s.muted → t.micro = s.micro

/-- A concrete scheduler state used to instantiate theorems. -/
def baseState : St :=
  { value := fun _ => 0, kind := fun _ => .effect, subsOf := fun _ => [],
    staleOf := fun _ => false, disposedOf := fun _ => false,
    spawn := fun _ => [], nodes := [], queue := [], scheduled := false,
    batchDepth := 0, muted := 0, frames := [], micro := 0, ran := [],
    written := [] }

end Sched

/-! # Theorems -/

/-! ## Cleanup drain (claim C8) -/

namespace Cleanups

theorem drainFrom_executed (l : List Cleanup) :
    (drainFrom l).1 = (l.map Cleanup.id).reverse := by
  induction l with
  | nil => rfl
  | cons c rest ih =>
    simp only [drainFrom, List.map, List.reverse_cons]
    cases h : runCb c <;> simp [ih]

theorem drainFrom_errors (l : List Cleanup) :
    (drainFrom l).2 = ((l.filter Cleanup.throws).map Cleanup.id).reverse := by
  induction l with
  | nil => rfl
  | cons c rest ih =>
    simp only [drainFrom]
    by_cases hc : c.throws
    · simp [runCb, hc, List.filter_cons, ih]
    · simp [runCb, hc, List.filter_cons, ih]

end Cleanups

/-- Claim C8: draining an effect's cleanups executes every callback in
LIFO order (append order A, B, C runs C, B, A), catches each throwing
callback individually so the remaining cleanups still run (the executed
list always contains every id, the caught errors are exactly the
throwing ids, and the drain is a total function — it never propagates),
and leaves the cleanups list empty. -/
theorem cleanups_drain_lifo_total_empty (l : List Cleanups.Cleanup) :
    (Cleanups.drainCleanups l).1 = (l.map Cleanups.Cleanup.id).reverse ∧
    (Cleanups.drainCleanups l).2.1
      = ((l.filter Cleanups.Cleanup.throws).map Cleanups.Cleanup.id).reverse ∧
    (Cleanups.drainCleanups l).2.2 = [] := by
  refine ⟨?_, ?_, rfl⟩
  · simpa [Cleanups.drainCleanups] using Cleanups.drainFrom_executed l
  · simpa [Cleanups.drainCleanups] using Cleanups.drainFrom_errors l

/-! ## Observer scopes (claim C7) -/

/-- Claim C7 counterexample: an effect run entered while another
effect's run is active (`activeEffect = some 0`) exits with
`activeEffect = none` — the `finally` of `EffectInstance.run` writes
`null` instead of restoring the outer scope's value, so the claim that
the activeEffect slot is restored to its previous value on exit fails. -/
theorem effRun_nested_no_restore_cex :
    ((Obs.effRunScope 1 (fun s => ((Except.ok 0 : Except Nat Nat), s))
        { currentObserver := some 0, activeEffect := some 0 }).2).activeEffect
      = none ∧ (none : Option Nat) ≠ some 0 := by
  constructor
  · rfl
  · decide

/-- Claim C7 (amended): `withObserver(obs, fn)` restores the previous
observer on every exit path — also when `fn` throws, and for arbitrary
behaviour of `fn` including nested scopes — and returns `fn`'s result;
the effect run's `activeEffect` scope also acts on every exit path, but
it sets the slot to `null` rather than restoring the outer run's value
(so the previous value is only re-established when it was `null`,
i.e. for non-nested runs).  `withObserver` also restores across an
effect run. -/
theorem observer_scopes_restore {ε α : Type} (obs self : Nat)
    (fn : Obs.Body ε α) (s : Obs.ObsState) :
    ((Obs.withObserver obs fn s).2).currentObserver = s.currentObserver ∧
    (Obs.withObserver obs fn s).1 = (fn { s with currentObserver := some obs }).1 ∧
    ((Obs.effRunScope self fn s).2).activeEffect = none ∧
    ((Obs.effRunScope self fn s).2).currentObserver = s.currentObserver := by
  refine ⟨?_, ?_, ?_, ?_⟩ <;> simp [Obs.withObserver, Obs.effRunScope]

/-! ## Computed (claims C3, C10) -/

/-- Claim C10: a computed on which `get()` was never invoked has
`hasValue = false`; `peek()` returns the undefined placeholder, leaves
the node (and hence every node) unchanged, has not invoked `fn`
(`fnCalls = 0`), and no edges exist (`deps = []`). -/
theorem computed_peek_before_get :
    Computed.peek Computed.computedInit = (Computed.computedInit, none) ∧
    Computed.computedInit.hasValue = false ∧
    Computed.computedInit.fnCalls = 0 ∧
    Computed.computedInit.deps = [] := by
  exact ⟨rfl, rfl, rfl, rfl⟩

/-- Claim C3 counterexample: for a fresh computed whose `fn` throws on
the first `get()`, the node is left with `computing = true` — the
source `recompute` has no `try`/`finally`, so the claim that
`computing` is `false` after the error propagates fails. -/
theorem computed_throw_computing_cex :
    ((Computed.getC { reads := [], result := .err 7 } Computed.computedInit).1).computing
      = true ∧ true ≠ false := by
  exact ⟨rfl, by decide⟩

/-- Claim C3 (amended): when `fn` throws during a recompute triggered
by `get()`, the error propagates out of that `get()`; afterwards
`stale` is still `true`, `deps` reflect exactly the tracking that
succeeded before the throw, and `fn` ran once — but `computing`
remains `true` (no `try`/`finally` resets it), so a subsequent `get()`
fails with the cycle-detection error instead of re-running `fn`. -/
theorem computed_throw_propagates (beh beh2 : Computed.FnBeh)
    (s : Computed.CompState) (e : Nat)
    (hc : s.computing = false) (hs : s.stale = true)
    (hr : beh.result = .err e) :
    (Computed.getC beh s).2 = .err (.user e) ∧
    ((Computed.getC beh s).1).stale = true ∧
    ((Computed.getC beh s).1).computing = true ∧
    ((Computed.getC beh s).1).deps = beh.reads ∧
    ((Computed.getC beh s).1).fnCalls = s.fnCalls + 1 ∧
    (Computed.getC beh2 (Computed.getC beh s).1).2 = .err .cycle ∧
    ((Computed.getC beh2 (Computed.getC beh s).1).1).fnCalls = s.fnCalls + 1 := by
  simp only [Computed.getC, Computed.recompute, hc, hs, hr]
  simp [hs]

/-! ## Graph invariant (claim C6) -/

theorem mem_setAdd {x y : Nat} {l : List Nat} :
    x ∈ setAdd y l ↔ x ∈ l ∨ x = y := by
  unfold setAdd
  by_cases h : y ∈ l
  · simp only [if_pos h]
    constructor
    · exact Or.inl
    · rintro (hx | rfl) <;> [exact hx; exact h]
  · simp [if_neg h]

theorem nodup_setAdd {y : Nat} {l : List Nat} (h : l.Nodup) :
    (setAdd y l).Nodup := by
  unfold setAdd
  by_cases hy : y ∈ l
  · simpa [hy]
  · rw [if_neg hy, List.nodup_append]
    exact ⟨h, List.nodup_singleton y, by simpa [List.disjoint_singleton] using hy⟩

theorem mem_setDel {x y : Nat} {l : List Nat} (h : l.Nodup) :
    x ∈ setDel y l ↔ x ∈ l ∧ x ≠ y := by
  unfold setDel
  constructor
  · intro hx
    exact ⟨List.mem_of_mem_erase hx, (List.Nodup.mem_erase_iff h).1 hx |>.1⟩
  · rintro ⟨hx, hne⟩
    exact (List.Nodup.mem_erase_iff h).2 ⟨hne, hx⟩

theorem nodup_setDel {y : Nat} {l : List Nat} (h : l.Nodup) :
    (setDel y l).Nodup := h.erase y

namespace Graph

theorem linkT_nodes (f t : Nat) (s : GraphState) :
    (linkT f t s).nodes = s.nodes := by
  unfold linkT link
  by_cases h : s.kind f = .signal <;> simp [h]

theorem linkT_kind (f t : Nat) (s : GraphState) :
    (linkT f t s).kind = s.kind := by
  unfold linkT link
  by_cases h : s.kind f = .signal <;> simp [h]

theorem unlink_nodes (f t : Nat) (s : GraphState) :
    (unlink f t s).nodes = s.nodes := rfl

theorem unlink_kind (f t : Nat) (s : GraphState) :
    (unlink f t s).kind = s.kind := rfl

theorem linkT_of_signal {f t : Nat} {s : GraphState} (hsig : s.kind f = .signal) :
    linkT f t s = s := by
  unfold linkT link
  simp [hsig]

theorem linkT_deps {f t : Nat} {s : GraphState} (hsig : ¬ s.kind f = .signal) :
    (linkT f t s).deps = Function.update s.deps f (setAdd t (s.deps f)) := by
  unfold linkT link
  simp [hsig]

theorem linkT_subs {f t : Nat} {s : GraphState} (hsig : ¬ s.kind f = .signal) :
    (linkT f t s).subs = Function.update s.subs t (setAdd f (s.subs t)) := by
  unfold linkT link
  simp [hsig]

theorem linkT_mem_deps {f t u v : Nat} {s : GraphState}
    (hsig : ¬ s.kind f = .signal) :
    (u ∈ (linkT f t s).deps v ↔ (u ∈ s.deps v ∨ (v = f ∧ u = t))) := by
  rw [linkT_deps hsig, Function.update_apply]
  by_cases hv : v = f
  · rw [if_pos hv, mem_setAdd]
    simp [hv]
  · simp [hv]

theorem linkT_mem_subs {f t u v : Nat} {s : GraphState}
    (hsig : ¬ s.kind f = .signal) :
    (v ∈ (linkT f t s).subs u ↔ (v ∈ s.subs u ∨ (u = t ∧ v = f))) := by
  rw [linkT_subs hsig, Function.update_apply]
  by_cases hu : u = t
  · rw [if_pos hu, mem_setAdd]
    simp [hu]
  · simp [hu]

theorem unlink_mem_deps {f t u v : Nat} {s : GraphState} (h : Inv s) :
    (u ∈ (unlink f t s).deps v ↔ (u ∈ s.deps v ∧ ¬ (v = f ∧ u = t))) := by
  show u ∈ Function.update s.deps f (setDel t (s.deps f)) v ↔ _
  rw [Function.update_apply]
  by_cases hv : v = f
  · rw [if_pos hv, mem_setDel (h.nodupDeps f)]
    simp [hv]
  · simp [hv]

theorem unlink_mem_subs {f t u v : Nat} {s : GraphState} (h : Inv s) :
    (v ∈ (unlink f t s).subs u ↔ (v ∈ s.subs u ∧ ¬ (u = t ∧ v = f))) := by
  show v ∈ Function.update s.subs t (setDel f (s.subs t)) u ↔ _
  rw [Function.update_apply]
  by_cases hu : u = t
  · rw [if_pos hu, mem_setDel (h.nodupSubs t)]
    simp [hu]
  · simp [hu]

theorem linkT_inv (f t : Nat) (s : GraphState) (h : Inv s)
    (hf : f ∈ s.nodes) (ht : t ∈ s.nodes) : Inv (linkT f t s) := by
  by_cases hsig : s.kind f = .signal
  · rw [linkT_of_signal hsig]
    exact h
  · refine ⟨?_, ?_, ?_, ?_, ?_⟩
    · intro u v
      rw [linkT_mem_deps hsig, linkT_mem_subs hsig]
      have := h.bij u v
      tauto
    · intro n hn
      rw [linkT_kind] at hn
      rw [linkT_deps hsig, Function.update_apply]
      by_cases hnf : n = f
      · exact absurd hn (hnf ▸ hsig)
      · rw [if_neg hnf]
        exact h.sigNoDeps n hn
    · intro u v hm
      rw [linkT_nodes]
      rcases (linkT_mem_deps hsig).1 hm with h1 | ⟨rfl, rfl⟩
      · exact h.edgeLive u v h1
      · exact ⟨ht, hf⟩
    · intro n
      rw [linkT_deps hsig, Function.update_apply]
      by_cases hn : n = f
      · rw [if_pos hn]
        exact nodup_setAdd (h.nodupDeps f)
      · rw [if_neg hn]
        exact h.nodupDeps n
    · intro n
      rw [linkT_subs hsig, Function.update_apply]
      by_cases hn : n = t
      · rw [if_pos hn]
        exact nodup_setAdd (h.nodupSubs t)
      · rw [if_neg hn]
        exact h.nodupSubs n

theorem unlink_inv (f t : Nat) (s : GraphState) (h : Inv s) :
    Inv (unlink f t s) := by
  refine ⟨?_, ?_, ?_, ?_, ?_⟩
  · intro u v
    rw [unlink_mem_deps h, unlink_mem_subs h]
    have := h.bij u v
    tauto
  · intro n hn
    rw [show (unlink f t s).kind = s.kind from rfl] at hn
    show Function.update s.deps f (setDel t (s.deps f)) n = []
    rw [Function.update_apply]
    by_cases hnf : n = f
    · rw [if_pos hnf, h.sigNoDeps f (hnf ▸ hn)]
      rfl
    · rw [if_neg hnf]
      exact h.sigNoDeps n hn
  · intro u v hm
    exact h.edgeLive u v ((unlink_mem_deps h).1 hm).1
  · intro n
    show (Function.update s.deps f (setDel t (s.deps f)) n).Nodup
    rw [Function.update_apply]
    by_cases hn : n = f
    · rw [if_pos hn]
      exact nodup_setDel (h.nodupDeps f)
    · rw [if_neg hn]
      exact h.nodupDeps n
  · intro n
    show (Function.update s.subs t (setDel f (s.subs t)) n).Nodup
    rw [Function.update_apply]
    by_cases hn : n = t
    · rw [if_pos hn]
      exact nodup_setDel (h.nodupSubs t)
    · rw [if_neg hn]
      exact h.nodupSubs n

theorem create_inv (n : Nat) (k : Kind) (s : GraphState) (h : Inv s)
    (hn : n ∉ s.nodes) :
    Inv { s with nodes := n :: s.nodes,
                 kind := Function.update s.kind n k,
                 deps := Function.update s.deps n [],
                 subs := Function.update s.subs n [] } := by
  have hsub : ∀ u, n ∉ s.subs u := fun u hu =>
    hn (h.edgeLive u n ((h.bij u n).2 hu)).2
  have hdep2 : ∀ v, n ∉ s.deps v := fun v hv => hn (h.edgeLive n v hv).1
  refine ⟨?_, ?_, ?_, ?_, ?_⟩
  · intro u v
    simp only [Function.update_apply]
    by_cases hv : v = n <;> by_cases hu : u = n
    · simp [hv, hu]
    · rw [if_pos hv, if_neg hu]
      simp only [List.not_mem_nil, false_iff]
      rw [hv]
      exact hsub u
    · rw [if_neg hv, if_pos hu]
      simp only [List.not_mem_nil, iff_false]
      rw [hu]
      exact hdep2 v
    · rw [if_neg hv, if_neg hu]
      exact h.bij u v
  · intro m hm
    simp only [Function.update_apply] at hm ⊢
    by_cases hmn : m = n
    · simp [hmn]
    · rw [if_neg hmn] at hm ⊢
      exact h.sigNoDeps m hm
  · intro u v hm
    simp only [Function.update_apply] at hm
    by_cases hv : v = n
    · rw [if_pos hv] at hm
      exact absurd hm (List.not_mem_nil u)
    · rw [if_neg hv] at hm
      have := h.edgeLive u v hm
      exact ⟨List.mem_cons_of_mem n this.1, List.mem_cons_of_mem n this.2⟩
  · intro m
    simp only [Function.update_apply]
    by_cases hmn : m = n
    · simp [hmn]
    · rw [if_neg hmn]
      exact h.nodupDeps m
  · intro m
    simp only [Function.update_apply]
    by_cases hmn : m = n
    · simp [hmn]
    · rw [if_neg hmn]
      exact h.nodupSubs m

theorem unlinkAll_inv (l : List Nat) (c : Nat) (s : GraphState) (h : Inv s) :
    Inv (unlinkAll c l s) := by
  induction l generalizing s with
  | nil => exact h
  | cons d rest ih => exact ih (unlink c d s) (unlink_inv c d s h)

theorem unlinkAll_nodes (l : List Nat) (c : Nat) (s : GraphState) :
    (unlinkAll c l s).nodes = s.nodes := by
  induction l generalizing s with
  | nil => rfl
  | cons d rest ih => exact ih (unlink c d s)

theorem linkReads_inv (reads : List Nat) (c : Nat) (s : GraphState)
    (h : Inv s) (hc : c ∈ s.nodes) : Inv (linkReads c reads s) := by
  induction reads generalizing s with
  | nil => exact h
  | cons r rest ih =>
    show Inv (List.foldl _ (if r ∈ s.nodes then linkT c r s else s) rest)
    by_cases hr : r ∈ s.nodes
    · rw [if_pos hr]
      exact ih (linkT c r s) (linkT_inv c r s h hc hr) (by rw [linkT_nodes]; exact hc)
    · rw [if_neg hr]
      exact ih s h hc

theorem unlinkRevAll_inv (l : List Nat) (c : Nat) (s : GraphState) (h : Inv s) :
    Inv (l.foldl (fun acc u => unlink u c acc) s) := by
  induction l generalizing s with
  | nil => exact h
  | cons u rest ih => exact ih (unlink u c s) (unlink_inv u c s h)

theorem eraseFold_self (l : List Nat) :
    List.foldl (fun a d => a.erase d) l l = [] := by
  have key : ∀ (l acc : List Nat), acc.length ≤ l.length →
      (∀ x ∈ acc, x ∈ l) → True := fun _ _ _ _ => trivial
  clear key
  induction l with
  | nil => rfl
  | cons x rest ih =>
    show List.foldl _ ((x :: rest).erase x) rest = []
    rw [List.erase_cons_head]
    exact ih

theorem unlinkAll_deps_self (l : List Nat) (c : Nat) (s : GraphState) :
    (unlinkAll c l s).deps c = List.foldl (fun a d => a.erase d) (s.deps c) l := by
  induction l generalizing s with
  | nil => rfl
  | cons d rest ih =>
    show (unlinkAll c rest (unlink c d s)).deps c = _
    rw [ih, List.foldl_cons]
    congr 1
    show Function.update s.deps c (setDel d (s.deps c)) c = _
    rw [Function.update_same]
    rfl

theorem unlinkAll_deps_emptied (c : Nat) (s : GraphState) :
    (unlinkAll c (s.deps c) s).deps c = [] := by
  rw [unlinkAll_deps_self]
  exact eraseFold_self (s.deps c)

theorem unlinkRevAll_subs_self (l : List Nat) (c : Nat) (s : GraphState) :
    (l.foldl (fun acc u => unlink u c acc) s).subs c
      = List.foldl (fun a u => a.erase u) (s.subs c) l := by
  induction l generalizing s with
  | nil => rfl
  | cons u rest ih =>
    show (List.foldl _ (unlink u c s) rest).subs c = _
    rw [ih, List.foldl_cons]
    congr 1
    show Function.update s.subs c (setDel u (s.subs c)) c = _
    rw [Function.update_same]
    rfl

theorem unlinkRevAll_deps_empty (l : List Nat) (c : Nat) (s : GraphState)
    (h : s.deps c = []) :
    (l.foldl (fun acc u => unlink u c acc) s).deps c = [] := by
  induction l generalizing s with
  | nil => exact h
  | cons u rest ih =>
    refine ih (unlink u c s) ?_
    show Function.update s.deps u (setDel c (s.deps u)) c = []
    rw [Function.update_apply]
    by_cases hu : c = u
    · rw [if_pos hu, ← hu, h]
      rfl
    · rw [if_neg hu]
      exact h

theorem stepOp_inv (op : GOp) (s : GraphState) (h : Inv s) :
    Inv (stepOp op s) := by
  cases op with
  | create n k =>
    show Inv (if n ∈ s.nodes then s else _)
    by_cases hn : n ∈ s.nodes
    · rwa [if_pos hn]
    · rw [if_neg hn]
      exact create_inv n k s h hn
  | link f t =>
    show Inv (if f ∈ s.nodes ∧ t ∈ s.nodes then linkT f t s else s)
    by_cases hm : f ∈ s.nodes ∧ t ∈ s.nodes
    · rw [if_pos hm]
      exact linkT_inv f t s h hm.1 hm.2
    · rwa [if_neg hm]
  | unlink f t =>
    show Inv (if f ∈ s.nodes ∧ t ∈ s.nodes then unlink f t s else s)
    by_cases hm : f ∈ s.nodes ∧ t ∈ s.nodes
    · rw [if_pos hm]
      exact unlink_inv f t s h
    · rwa [if_neg hm]
  | track obs dep =>
    show Inv (if obs ∈ s.nodes ∧ dep ∈ s.nodes then linkT obs dep s else s)
    by_cases hm : obs ∈ s.nodes ∧ dep ∈ s.nodes
    · rw [if_pos hm]
      exact linkT_inv obs dep s h hm.1 hm.2
    · rwa [if_neg hm]
  | recompute c reads =>
    show Inv (if c ∈ s.nodes then linkReads c reads (unlinkAll c (s.deps c) s) else s)
    by_cases hc : c ∈ s.nodes
    · rw [if_pos hc]
      exact linkReads_inv reads c _ (unlinkAll_inv _ c s h)
        (by rw [unlinkAll_nodes]; exact hc)
    · rwa [if_neg hc]
  | run e reads =>
    show Inv (if e ∈ s.nodes then linkReads e reads (unlinkAll e (s.deps e) s) else s)
    by_cases he : e ∈ s.nodes
    · rw [if_pos he]
      exact linkReads_inv reads e _ (unlinkAll_inv _ e s h)
        (by rw [unlinkAll_nodes]; exact he)
    · rwa [if_neg he]
  | disposeComputed c =>
    show Inv (if c ∈ s.nodes then _ else s)
    by_cases hc : c ∈ s.nodes
    · rw [if_pos hc]
      have h1 : Inv (unlinkAll c (s.deps c) s) := unlinkAll_inv _ c s h
      set s1 := unlinkAll c (s.deps c) s with hs1
      have h2 : Inv ((s1.subs c).foldl (fun acc u => unlink u c acc) s1) :=
        unlinkRevAll_inv _ c s1 h1
      set s2 := (s1.subs c).foldl (fun acc u => unlink u c acc) s1 with hs2
      have hd2 : s2.deps c = [] := by
        rw [hs2]
        exact unlinkRevAll_deps_empty _ c s1 (unlinkAll_deps_emptied c s)
      have hsub2 : s2.subs c = [] := by
        rw [hs2, unlinkRevAll_subs_self]
        exact eraseFold_self (s1.subs c)
      have hde : Function.update s2.deps c [] = s2.deps := by
        rw [← hd2]
        exact Function.update_eq_self c s2.deps
      have hse : Function.update s2.subs c [] = s2.subs := by
        rw [← hsub2]
        exact Function.update_eq_self c s2.subs
      show Inv { s2 with deps := Function.update s2.deps c [],
                         subs := Function.update s2.subs c [] }
      rw [hde, hse]
      exact h2
    · rwa [if_neg hc]
  | disposeEffect e =>
    show Inv (if e ∈ s.nodes then _ else s)
    by_cases he : e ∈ s.nodes
    · rw [if_pos he]
      have h1 : Inv (unlinkAll e (s.deps e) s) := unlinkAll_inv _ e s h
      have hd1 : (unlinkAll e (s.deps e) s).deps e = [] := unlinkAll_deps_emptied e s
      have hde : Function.update (unlinkAll e (s.deps e) s).deps e []
          = (unlinkAll e (s.deps e) s).deps := by
        rw [← hd1]
        exact Function.update_eq_self e _
      show Inv { unlinkAll e (s.deps e) s with
                 deps := Function.update (unlinkAll e (s.deps e) s).deps e [] }
      rw [hde]
      exact h1
    · rwa [if_neg he]

theorem execOps_inv (ops : List GOp) (s : GraphState) (h : Inv s) :
    Inv (execOps ops s) := by
  induction ops generalizing s with
  | nil => exact h
  | cons op rest ih => exact ih (stepOp op s) (stepOp_inv op s h)

theorem initGraph_inv : Inv initGraph := by
  refine ⟨?_, ?_, ?_, ?_, ?_⟩ <;> intros <;> simp_all [initGraph]

end Graph

/-- Claim C6: in every state reachable from the empty graph through the
public operations (node creation, `link`, `unlink`, `track` under
`withObserver`, `recompute`, effect `run`, and the dispose operations)
the edge bijection `u ∈ v.deps ⇔ v ∈ u.subs` holds and every signal
node has empty `deps`; moreover `link` fails with `IllegalEdge`
whenever its source is a signal (so no operation can add a dependency
to a signal). -/
theorem graph_edge_invariant :
    (∀ ops : List Graph.GOp,
      (∀ u v, u ∈ (Graph.execOps ops Graph.initGraph).deps v ↔
              v ∈ (Graph.execOps ops Graph.initGraph).subs u) ∧
      (∀ n, (Graph.execOps ops Graph.initGraph).kind n = .signal →
            (Graph.execOps ops Graph.initGraph).deps n = [])) ∧
    (∀ f t : Nat, ∀ s : Graph.GraphState, s.kind f = .signal →
      Graph.link f t s = .error .illegalEdge) := by
  constructor
  · intro ops
    have h := Graph.execOps_inv ops Graph.initGraph Graph.initGraph_inv
    exact ⟨h.bij, h.sigNoDeps⟩
  · intro f t s hf
    unfold Graph.link
    rw [if_pos hf]

/-- Witness for `graph_edge_invariant`: a concrete run (create a
signal, an effect, link them via `track`) and a concrete illegal
`link`. -/
theorem graph_edge_invariant_witness :
    (∀ u v, u ∈ (Graph.execOps
        [.create 0 .signal, .create 1 .effect, .track 1 0]
        Graph.initGraph).deps v ↔
      v ∈ (Graph.execOps
        [.create 0 .signal, .create 1 .effect, .track 1 0]
        Graph.initGraph).subs u) ∧
    (({ Graph.initGraph with kind := fun _ => .signal } : Graph.GraphState).kind 7
        = .signal ∧
      Graph.link 7 8 { Graph.initGraph with kind := fun _ => .signal }
        = .error .illegalEdge) := by
  refine ⟨(graph_edge_invariant.1 _).1, rfl, ?_⟩
  exact graph_edge_invariant.2 7 8 _ rfl

/-- Witness for `computed_throw_propagates` at a concrete input. -/
theorem computed_throw_propagates_witness :
    Computed.computedInit.computing = false ∧
    Computed.computedInit.stale = true ∧
    (Computed.getC { reads := [2], result := .err 5 } Computed.computedInit).2
      = .err (.user 5) ∧
    ((Computed.getC { reads := [2], result := .err 5 } Computed.computedInit).1).computing
      = true := by
  have h := computed_throw_propagates { reads := [2], result := .err 5 }
    { reads := [], result := .ok 0 } Computed.computedInit 5 rfl rfl rfl
  exact ⟨rfl, rfl, h.1, h.2.2.1⟩

/-! ## Scheduler: `scheduleJob` (claim C4) -/

namespace Sched

theorem quiet_refl (s : St) : Quiet s s := by
  refine ⟨rfl, rfl, rfl, rfl, rfl, rfl, rfl, rfl, rfl, rfl, rfl, fun _ => rfl,
    fun _ h => h, fun _ h => h⟩

theorem quiet_trans {s t u : St} (h1 : Quiet s t) (h2 : Quiet t u) : Quiet s u := by
  obtain ⟨a1, a2, a3, a4, a5, a6, a7, a8, a9, a10, a11, a12, a13, a14⟩ := h1
  obtain ⟨b1, b2, b3, b4, b5, b6, b7, b8, b9, b10, b11, b12, b13, b14⟩ := h2
  refine ⟨b1.trans a1, b2.trans a2, b3.trans a3, b4.trans a4, b5.trans a5,
    b6.trans a6, b7.trans a7, b8.trans a8, b9.trans a9, b10.trans a10,
    b11.trans a11, ?_, fun x hx => b13 x (a13 x hx), fun m hm => b14 m (a14 m hm)⟩
  intro h
  rw [b12 (by rw [a7, a8]; exact h)]
  exact a12 h

theorem scheduleJob_quiet (j : Nat) (s : St) : Quiet s (scheduleJob j s) := by
  unfold scheduleJob
  by_cases hd : s.disposedOf j
  · rw [if_pos hd]
    exact quiet_refl s
  · rw [if_neg hd]
    by_cases hm : s.muted > 0
    · rw [if_pos hm]
      exact quiet_refl s
    · rw [if_neg hm]
      by_cases hs : s.scheduled = false ∧ s.batchDepth = 0
      · rw [if_pos hs]
        refine ⟨rfl, rfl, rfl, rfl, rfl, rfl, rfl, rfl, rfl, rfl, rfl, ?_, ?_, fun _ h => h⟩
        · rintro (hb | hmu)
          · exact absurd hs.2 (by omega)
          · exact absurd hmu hm
        · intro x hx
          exact mem_setAdd.2 (Or.inl hx)
      · rw [if_neg hs]
        refine ⟨rfl, rfl, rfl, rfl, rfl, rfl, rfl, rfl, rfl, rfl, rfl, fun _ => rfl,
          ?_, fun _ h => h⟩
        intro x hx
        exact mem_setAdd.2 (Or.inl hx)

theorem staleUpdate_quiet (n : Nat) (s : St) :
    Quiet s { s with staleOf := Function.update s.staleOf n true } := by
  refine ⟨rfl, rfl, rfl, rfl, rfl, rfl, rfl, rfl, rfl, rfl, rfl, fun _ => rfl,
    fun _ h => h, ?_⟩
  intro m hm
  show Function.update s.staleOf n true m = true
  rw [Function.update_apply]
  by_cases hmn : m = n
  · rw [if_pos hmn]
  · rw [if_neg hmn]
    exact hm

theorem markStale_quiet (fuel : Nat) :
    (∀ n s, Quiet s (markStaleF fuel n s)) ∧
    (∀ l s, Quiet s (markStaleSubs fuel l s)) := by
  induction fuel with
  | zero =>
    have hF : ∀ n s, Quiet s (markStaleF 0 n s) := by
      intro n s
      unfold markStaleF
      exact quiet_refl s
    refine ⟨hF, ?_⟩
    intro l
    induction l with
    | nil =>
      intro s
      unfold markStaleSubs
      exact quiet_refl s
    | cons sub rest ih =>
      intro s
      show Quiet s (markStaleSubs 0 (sub :: rest) s)
      unfold markStaleSubs
      refine quiet_trans ?_ (ih _)
      by_cases h1 : s.kind sub = .computed
      · rw [if_pos h1]
        exact hF sub s
      · rw [if_neg h1]
        by_cases h2 : s.kind sub = .effect
        · rw [if_pos h2]
          exact scheduleJob_quiet sub s
        · rw [if_neg h2]
          exact quiet_refl s
  | succ f ihf =>
    have hF : ∀ n s, Quiet s (markStaleF (f + 1) n s) := by
      intro n s
      unfold markStaleF
      by_cases h1 : s.kind n ≠ .computed
      · rw [if_pos h1]
        exact quiet_refl s
      · rw [if_neg h1]
        by_cases h2 : s.staleOf n
        · rw [if_pos h2]
          exact quiet_refl s
        · rw [if_neg h2]
          exact quiet_trans (staleUpdate_quiet n s) (ihf.2 _ _)
    refine ⟨hF, ?_⟩
    intro l
    induction l with
    | nil =>
      intro s
      unfold markStaleSubs
      exact quiet_refl s
    | cons sub rest ih =>
      intro s
      show Quiet s (markStaleSubs (f + 1) (sub :: rest) s)
      unfold markStaleSubs
      refine quiet_trans ?_ (ih _)
      by_cases h1 : s.kind sub = .computed
      · rw [if_pos h1]
        exact hF sub s
      · rw [if_neg h1]
        by_cases h2 : s.kind sub = .effect
        · rw [if_pos h2]
          exact scheduleJob_quiet sub s
        · rw [if_neg h2]
          exact quiet_refl s

end Sched

/-- Claim C4: `scheduleJob(j)` is a complete no-op when `j.disposed` or
`muted > 0`; otherwise it inserts `j` into the queue deduplicated by
identity and, exactly when no flush is scheduled and `batchDepth = 0`,
sets `scheduled` and enqueues one `flushJobs` microtask (otherwise it
enqueues nothing and leaves `scheduled` alone). -/
theorem scheduleJob_spec (j : Nat) (s : Sched.St) :
    (s.disposedOf j = true → Sched.scheduleJob j s = s) ∧
    (0 < s.muted → Sched.scheduleJob j s = s) ∧
    (s.disposedOf j = false → s.muted = 0 →
      (Sched.scheduleJob j s).queue = setAdd j s.queue ∧
      ((s.scheduled = false ∧ s.batchDepth = 0) →
        (Sched.scheduleJob j s).scheduled = true ∧
        (Sched.scheduleJob j s).micro = s.micro + 1) ∧
      (¬ (s.scheduled = false ∧ s.batchDepth = 0) →
        (Sched.scheduleJob j s).scheduled = s.scheduled ∧
        (Sched.scheduleJob j s).micro = s.micro)) := by
  refine ⟨?_, ?_, ?_⟩
  · intro hd
    unfold Sched.scheduleJob
    rw [if_pos (by rw [hd])]
  · intro hm
    unfold Sched.scheduleJob
    by_cases hd : s.disposedOf j
    · rw [if_pos hd]
    · rw [if_neg hd, if_pos hm]
  · intro hd hm
    unfold Sched.scheduleJob
    rw [if_neg (by rw [hd]; exact fun h => by cases h), if_neg (by omega)]
    by_cases hc : s.scheduled = false ∧ s.batchDepth = 0
    · rw [if_pos hc]
      exact ⟨rfl, fun _ => ⟨rfl, rfl⟩, fun h => absurd hc h⟩
    · rw [if_neg hc]
      exact ⟨rfl, fun h => absurd h hc, fun _ => ⟨rfl, rfl⟩⟩

/-- Witness for `scheduleJob_spec`: concrete no-op and insert cases. -/
theorem scheduleJob_spec_witness :
    (({ Sched.baseState with muted := 1 } : Sched.St).muted > 0 →
      Sched.scheduleJob 4 { Sched.baseState with muted := 1 }
        = { Sched.baseState with muted := 1 }) ∧
    ((Sched.scheduleJob 4 Sched.baseState).queue = setAdd 4 [] ∧
      (Sched.scheduleJob 4 Sched.baseState).scheduled = true ∧
      (Sched.scheduleJob 4 Sched.baseState).micro = 1) := by
  have h1 := (scheduleJob_spec 4 { Sched.baseState with muted := 1 }).2.1
  have h2 := (scheduleJob_spec 4 Sched.baseState).2.2 rfl rfl
  exact ⟨fun _ => h1 (by decide), h2.1, (h2.2.1 ⟨rfl, rfl⟩).1, (h2.2.1 ⟨rfl, rfl⟩).2⟩

/-! ## Scheduler: `flushJobs` (claim C9) -/

namespace Sched

theorem flushLoop_ok_queue : ∀ (fuel : Nat) (s s1 : St),
    flushLoop fuel s = (s1, none) → s1.queue = [] := by
  intro fuel
  induction fuel with
  | zero =>
    intro s s1 h
    unfold flushLoop at h
    by_cases hq : s.queue = []
    · rw [if_pos hq] at h
      injection h with h1 h2
      rw [← h1]
      exact hq
    · rw [if_neg hq] at h
      injection h with h1 h2
      exact absurd h2 (by decide)
  | succ f ih =>
    intro s s1 h
    unfold flushLoop at h
    by_cases hq : s.queue = []
    · rw [if_pos hq] at h
      injection h with h1 h2
      rw [← h1]
      exact hq
    · rw [if_neg hq] at h
      exact ih _ _ h

theorem flushLoop_guard : ∀ (fuel : Nat) (s : St),
    (∀ k, k ≤ fuel → (iterRound k s).queue ≠ []) →
    (flushLoop fuel s).2 = some .infiniteLoop := by
  intro fuel
  induction fuel with
  | zero =>
    intro s h
    have h0 := h 0 (Nat.le_refl 0)
    simp only [iterRound] at h0
    unfold flushLoop
    rw [if_neg h0]
  | succ f ih =>
    intro s h
    have h0 := h 0 (Nat.zero_le _)
    simp only [iterRound] at h0
    unfold flushLoop
    rw [if_neg h0]
    show (flushLoop f (runJobs s.queue { s with queue := [] })).2 = _
    apply ih
    intro k hk
    have hk1 := h (k + 1) (Nat.succ_le_succ hk)
    simpa [iterRound, drainRound] using hk1

theorem runJob_nospawn (j : Nat) (s : St) (h : s.spawn j = []) :
    (runJob j s).queue = s.queue ∧ (runJob j s).scheduled = s.scheduled ∧
    (runJob j s).spawn = s.spawn := by
  unfold runJob
  by_cases hd : s.disposedOf j
  · rw [if_pos hd]
    exact ⟨rfl, rfl, rfl⟩
  · rw [if_neg hd]
    simp [h]

theorem runJobs_nospawn (l : List Nat) (s : St) (h : ∀ j, s.spawn j = []) :
    (runJobs l s).queue = s.queue ∧ (runJobs l s).scheduled = s.scheduled ∧
    (runJobs l s).spawn = s.spawn := by
  induction l generalizing s with
  | nil => exact ⟨rfl, rfl, rfl⟩
  | cons j rest ih =>
    have h1 := runJob_nospawn j s (h j)
    have h2 := ih (runJob j s) (by rw [h1.2.2]; exact h)
    show ((runJobs rest (runJob j s)).queue = _) ∧ _
    exact ⟨h2.1.trans h1.1, (h2.2.1).trans h1.2.1, (h2.2.2).trans h1.2.2⟩

end Sched

/-- Claim C9 counterexample: a flush during which a job schedules a new
job returns with `scheduled = true` (the `scheduleJob` issued mid-flush
set the flag and enqueued a new microtask, and `flushJobs` never clears
it again), refuting the claim that `scheduled` is false on every
completed non-reentrant invocation. -/
theorem flushJobs_scheduled_cex :
    (Sched.flushJobs { Sched.baseState with
      queue := [1], spawn := fun j => if j = 1 then [2] else [] }).2 = none ∧
    (Sched.flushJobs { Sched.baseState with
      queue := [1], spawn := fun j => if j = 1 then [2] else [] }).1.queue = [] ∧
    (Sched.flushJobs { Sched.baseState with
      queue := [1], spawn := fun j => if j = 1 then [2] else [] }).1.scheduled
      = true := by
  exact ⟨rfl, rfl, rfl⟩

/-- Claim C9 (amended): `flushJobs` repeatedly drains snapshots of the
queue, running each job; every invocation that returns normally leaves
the queue empty, and it fails with `InfiniteUpdateLoop` when more than
10000 drain rounds are needed; `scheduled` is false on return provided
no executed job scheduled new work (in general a job that schedules
mid-flush leaves `scheduled = true` with one pending microtask, cf. the
counterexample). -/
theorem flushJobs_drain_guard :
    (∀ s s1 : Sched.St, Sched.flushJobs s = (s1, none) → s1.queue = []) ∧
    (∀ s : Sched.St,
      (∀ k, k ≤ 10000 → (Sched.iterRound k { s with scheduled := false }).queue ≠ []) →
      (Sched.flushJobs s).2 = some .infiniteLoop) ∧
    (∀ s : Sched.St, (∀ j, s.spawn j = []) →
      (Sched.flushJobs s).2 = none ∧ (Sched.flushJobs s).1.queue = [] ∧
      (Sched.flushJobs s).1.scheduled = false) := by
  refine ⟨?_, ?_, ?_⟩
  · intro s s1 h
    exact Sched.flushLoop_ok_queue 10000 _ s1 h
  · intro s h
    exact Sched.flushLoop_guard 10000 _ h
  · intro s h
    set s1 : Sched.St := { s with scheduled := false } with hs1
    show (Sched.flushLoop 10000 s1).2 = none ∧
      (Sched.flushLoop 10000 s1).1.queue = [] ∧
      (Sched.flushLoop 10000 s1).1.scheduled = false
    by_cases hq : s1.queue = []
    · unfold Sched.flushLoop
      rw [if_pos hq]
      exact ⟨rfl, hq, rfl⟩
    · have h2 := Sched.runJobs_nospawn s1.queue { s1 with queue := [] } (fun j => h j)
      unfold Sched.flushLoop
      rw [if_neg hq]
      show ((Sched.flushLoop 9999 (Sched.runJobs s1.queue { s1 with queue := [] })).2 = none) ∧ _
      unfold Sched.flushLoop
      rw [if_pos (h2.1.trans rfl)]
      exact ⟨rfl, h2.1.trans rfl, h2.2.1.trans rfl⟩

/-! ## Scheduler: `signal.set` (claim C5) -/

namespace Sched

theorem scheduleJob_mem (j : Nat) (s : St) (hd : s.disposedOf j = false)
    (hm : s.muted = 0) : j ∈ (scheduleJob j s).queue := by
  unfold scheduleJob
  rw [if_neg (by rw [hd]; exact fun h => by cases h), if_neg (by omega)]
  have hj : j ∈ setAdd j s.queue := mem_setAdd.2 (Or.inr rfl)
  by_cases hc : s.scheduled = false ∧ s.batchDepth = 0
  · rw [if_pos hc]
    exact hj
  · rw [if_neg hc]
    exact hj

theorem markStaleF_marks (fuel n : Nat) (s : St) (hf : 0 < fuel)
    (hk : s.kind n = .computed) : (markStaleF fuel n s).staleOf n = true := by
  cases fuel with
  | zero => omega
  | succ f =>
    unfold markStaleF
    rw [if_neg (by rw [hk]; exact fun h => h rfl)]
    by_cases hs : s.staleOf n
    · rw [if_pos hs]
      exact hs
    · rw [if_neg hs]
      refine ((markStale_quiet f).2 _ _).staleMono n ?_
      show Function.update s.staleOf n true n = true
      rw [Function.update_same]

theorem markStaleSubs_hits (fuel : Nat) (l : List Nat) (s : St) (sub : Nat)
    (hsub : sub ∈ l) (hf : 0 < fuel) :
    (s.kind sub = .computed → (markStaleSubs fuel l s).staleOf sub = true) ∧
    (s.kind sub = .effect → s.disposedOf sub = false → s.muted = 0 →
      sub ∈ (markStaleSubs fuel l s).queue) := by
  induction l generalizing s with
  | nil => cases hsub
  | cons a rest ih =>
    have hstep : Quiet s (if s.kind a = .computed then markStaleF fuel a s
        else if s.kind a = .effect then scheduleJob a s else s) := by
      by_cases h1 : s.kind a = .computed
      · rw [if_pos h1]
        exact (markStale_quiet fuel).1 a s
      · rw [if_neg h1]
        by_cases h2 : s.kind a = .effect
        · rw [if_pos h2]
          exact scheduleJob_quiet a s
        · rw [if_neg h2]
          exact quiet_refl s
    set s2 := if s.kind a = .computed then markStaleF fuel a s
        else if s.kind a = .effect then scheduleJob a s else s with hs2
    have hrun : markStaleSubs fuel (a :: rest) s = markStaleSubs fuel rest s2 := by
      conv_lhs => rw [markStaleSubs]
    rcases List.mem_cons.1 hsub with rfl | htail
    · constructor
      · intro hk
        rw [hrun]
        refine ((markStale_quiet fuel).2 rest s2).staleMono sub ?_
        rw [hs2, if_pos hk]
        exact markStaleF_marks fuel sub s hf hk
      · intro hk hd hm
        rw [hrun]
        refine ((markStale_quiet fuel).2 rest s2).queueMono sub ?_
        rw [hs2, if_neg (by rw [hk]; exact fun h => by cases h), if_pos hk]
        exact scheduleJob_mem sub s hd hm
    · have h2 := ih s2 htail
      rw [hrun]
      constructor
      · intro hk
        exact h2.1 (by rw [hstep.kindEq]; exact hk)
      · intro hk hd hm
        exact h2.2 (by rw [hstep.kindEq]; exact hk)
          (by rw [hstep.dispEq]; exact hd) (by rw [hstep.mutedEq]; exact hm)

theorem recordAtomicWrite_value (n : Nat) (p : Int) (s : St) :
    (recordAtomicWrite n p s).value = s.value := by
  unfold recordAtomicWrite
  split
  · rfl
  · split <;> rfl

theorem recordAtomicWrite_quietFields (n : Nat) (p : Int) (s : St) :
    (recordAtomicWrite n p s).kind = s.kind ∧
    (recordAtomicWrite n p s).subsOf = s.subsOf ∧
    (recordAtomicWrite n p s).disposedOf = s.disposedOf ∧
    (recordAtomicWrite n p s).muted = s.muted ∧
    (recordAtomicWrite n p s).queue = s.queue ∧
    (recordAtomicWrite n p s).staleOf = s.staleOf ∧
    (recordAtomicWrite n p s).nodes = s.nodes ∧
    (recordAtomicWrite n p s).batchDepth = s.batchDepth ∧
    (recordAtomicWrite n p s).micro = s.micro ∧
    (recordAtomicWrite n p s).spawn = s.spawn ∧
    (recordAtomicWrite n p s).written = s.written ∧
    (recordAtomicWrite n p s).ran = s.ran ∧
    (recordAtomicWrite n p s).scheduled = s.scheduled := by
  unfold recordAtomicWrite
  split
  · exact ⟨rfl, rfl, rfl, rfl, rfl, rfl, rfl, rfl, rfl, rfl, rfl, rfl, rfl⟩
  · split
    · exact ⟨rfl, rfl, rfl, rfl, rfl, rfl, rfl, rfl, rfl, rfl, rfl, rfl, rfl⟩
    · exact ⟨rfl, rfl, rfl, rfl, rfl, rfl, rfl, rfl, rfl, rfl, rfl, rfl, rfl⟩

end Sched

/-- Claim C5 (for the spec-modelled atomic-aware `signal.set`; the
evolved `signal.ts` is not under `src/`): a function argument is
applied to the current value to obtain `nxt`; if `equals(current, nxt)`
holds the `set` is a complete no-op; otherwise the value becomes `nxt`
and, for each subscriber of the signal, a computed subscriber is marked
stale via `markStale` and an effect subscriber has `schedule()` called
(entering the queue whenever it is not disposed and the scheduler is
not muted). -/
theorem signal_set_spec (n : Nat) (u : Sched.Upd) (v : Int) (s : Sched.St) :
    (Sched.setSigU n u s = Sched.setSig n (Sched.resolveUpd u (s.value n)) s) ∧
    (s.value n = v → Sched.setSig n v s = s) ∧
    (¬ s.value n = v →
      (Sched.setSig n v s).value = Function.update s.value n v ∧
      (∀ sub, sub ∈ s.subsOf n →
        (s.kind sub = .computed → (Sched.setSig n v s).staleOf sub = true) ∧
        (s.kind sub = .effect → s.disposedOf sub = false → s.muted = 0 →
          sub ∈ (Sched.setSig n v s).queue))) := by
  refine ⟨rfl, ?_, ?_⟩
  · intro h
    unfold Sched.setSig
    rw [if_pos h]
  · intro h
    unfold Sched.setSig
    rw [if_neg h]
    set s1 := if s.frames.length > 0 then Sched.recordAtomicWrite n (s.value n) s
      else s with hs1
    have h1v : s1.value = s.value := by
      rw [hs1]
      split
      · exact Sched.recordAtomicWrite_value n (s.value n) s
      · rfl
    have h1f := Sched.recordAtomicWrite_quietFields n (s.value n) s
    have h1k : s1.kind = s.kind := by
      rw [hs1]; split; exacts [h1f.1, rfl]
    have h1sub : s1.subsOf = s.subsOf := by
      rw [hs1]; split; exacts [h1f.2.1, rfl]
    have h1d : s1.disposedOf = s.disposedOf := by
      rw [hs1]; split; exacts [h1f.2.2.1, rfl]
    have h1m : s1.muted = s.muted := by
      rw [hs1]; split; exacts [h1f.2.2.2.1, rfl]
    have h1q : s1.queue = s.queue := by
      rw [hs1]; split; exacts [h1f.2.2.2.2.1, rfl]
    have h1st : s1.staleOf = s.staleOf := by
      rw [hs1]; split; exacts [h1f.2.2.2.2.2.1, rfl]
    set s2 : Sched.St := { s1 with value := Function.update s1.value n v,
                                   written := s1.written ++ [n] } with hs2
    have hq := (Sched.markStale_quiet (s2.nodes.length + 1)).2 (s2.subsOf n) s2
    constructor
    · rw [hq.valueEq]
      show Function.update s1.value n v = _
      rw [h1v]
    · intro sub hsub
      have hsub2 : sub ∈ s2.subsOf n := by
        show sub ∈ s1.subsOf n
        rw [h1sub]
        exact hsub
      have hh := Sched.markStaleSubs_hits (s2.nodes.length + 1) (s2.subsOf n) s2 sub
        hsub2 (Nat.succ_pos _)
      constructor
      · intro hk
        exact hh.1 (by show s1.kind sub = _; rw [h1k]; exact hk)
      · intro hk hd hm
        exact hh.2 (by show s1.kind sub = _; rw [h1k]; exact hk)
          (by show s1.disposedOf sub = _; rw [h1d]; exact hd)
          (by show s1.muted = _; rw [h1m]; exact hm)

/-- Witness for `signal_set_spec`: a concrete signal with one computed
and one effect subscriber. -/
theorem signal_set_spec_witness :
    (¬ ({ Sched.baseState with
        subsOf := fun m => if m = 1 then [2, 3] else [],
        kind := fun m => if m = 2 then .computed else .effect } : Sched.St).value 1
      = 5) ∧
    ((Sched.setSig 1 5 { Sched.baseState with
        subsOf := fun m => if m = 1 then [2, 3] else [],
        kind := fun m => if m = 2 then .computed else .effect }).staleOf 2 = true ∧
      3 ∈ (Sched.setSig 1 5 { Sched.baseState with
        subsOf := fun m => if m = 1 then [2, 3] else [],
        kind := fun m => if m = 2 then .computed else .effect }).queue) := by
  have h := (signal_set_spec 1 (.val 5) 5 { Sched.baseState with
      subsOf := fun m => if m = 1 then [2, 3] else [],
      kind := fun m => if m = 2 then .computed else .effect }).2.2 (by decide)
  refine ⟨by decide, ?_, ?_⟩
  · exact (h.2 2 (by decide)).1 rfl
  · exact (h.2 3 (by decide)).2 rfl rfl rfl

/-! ## Scheduler: atomic scopes (claims C1, C2) -/

namespace Sched

theorem logFind_nil (m : Nat) : logFind m ([] : List (Nat × Int)) = none := rfl

theorem logFind_cons (m : Nat) (p : Nat × Int) (rest : List (Nat × Int)) :
    logFind m (p :: rest) = if p.1 = m then some p.2 else logFind m rest := rfl

theorem logFind_append_some {m : Nat} {w : Int} {l1 l2 : List (Nat × Int)}
    (h : logFind m l1 = some w) : logFind m (l1 ++ l2) = some w := by
  induction l1 with
  | nil => cases h
  | cons p rest ih =>
    rw [List.cons_append, logFind_cons]
    rw [logFind_cons] at h
    by_cases hp : p.1 = m
    · rwa [if_pos hp] at h ⊢
    · rw [if_neg hp] at h ⊢
      exact ih h

theorem logFind_append_none {m : Nat} {l1 l2 : List (Nat × Int)}
    (h : logFind m l1 = none) : logFind m (l1 ++ l2) = logFind m l2 := by
  induction l1 with
  | nil => rfl
  | cons p rest ih =>
    rw [List.cons_append, logFind_cons]
    rw [logFind_cons] at h
    by_cases hp : p.1 = m
    · rw [if_pos hp] at h
      cases h
    · rw [if_neg hp] at h ⊢
      exact ih h

theorem logFind_mem {n : Nat} {v : Int} {l : List (Nat × Int)}
    (h : logFind n l = some v) : (n, v) ∈ l := by
  induction l with
  | nil => cases h
  | cons p rest ih =>
    rw [logFind_cons] at h
    by_cases hp : p.1 = n
    · rw [if_pos hp] at h
      injection h with h1
      rw [← hp, ← h1]
      exact List.mem_cons_self p rest
    · rw [if_neg hp] at h
      exact List.mem_cons_of_mem p (ih h)

theorem mergeFS_cons (q : Nat × Int) (rest parent : List (Nat × Int)) :
    mergeFS (q :: rest) parent
      = mergeFS rest (if (logFind q.1 parent).isSome then parent
          else parent ++ [q]) := by
  unfold mergeFS
  rw [List.foldl_cons]

theorem logFind_mergeFS_some {m : Nat} {w : Int} {c p : List (Nat × Int)}
    (h : logFind m p = some w) : logFind m (mergeFS c p) = some w := by
  induction c generalizing p with
  | nil => exact h
  | cons q rest ih =>
    rw [mergeFS_cons]
    by_cases hq : (logFind q.1 p).isSome
    · rw [if_pos hq]
      exact ih h
    · rw [if_neg hq]
      exact ih (logFind_append_some h)

theorem logFind_mergeFS_none {m : Nat} {c p : List (Nat × Int)}
    (h : logFind m p = none) : logFind m (mergeFS c p) = logFind m c := by
  induction c generalizing p with
  | nil => exact h
  | cons q rest ih =>
    rw [mergeFS_cons, logFind_cons]
    by_cases hqm : q.1 = m
    · have hq : ¬ (logFind q.1 p).isSome := by
        rw [hqm, h]
        exact fun hh => by cases hh
      rw [if_neg hq, if_pos hqm]
      have hfound : logFind m (p ++ [q]) = some q.2 := by
        rw [logFind_append_none h, logFind_cons]
        rw [if_pos hqm]
      exact logFind_mergeFS_some hfound
    · rw [if_neg hqm]
      by_cases hq : (logFind q.1 p).isSome
      · rw [if_pos hq]
        exact ih h
      · rw [if_neg hq]
        have hnone : logFind m (p ++ [q]) = none := by
          rw [logFind_append_none h, logFind_cons, if_neg hqm]
          rfl
        exact ih hnone

theorem mergeFS_mem {c p : List (Nat × Int)} {q : Nat × Int}
    (h : q ∈ mergeFS c p) :
    q ∈ p ∨ (q ∈ c ∧ logFind q.1 p = none) := by
  induction c generalizing p with
  | nil => exact Or.inl h
  | cons a rest ih =>
    rw [mergeFS_cons] at h
    by_cases ha : (logFind a.1 p).isSome
    · rw [if_pos ha] at h
      rcases ih h with h1 | ⟨h1, h2⟩
      · exact Or.inl h1
      · exact Or.inr ⟨List.mem_cons_of_mem a h1, h2⟩
    · rw [if_neg ha] at h
      rcases ih h with h1 | ⟨h1, h2⟩
      · rcases List.mem_append.1 h1 with h3 | h3
        · exact Or.inl h3
        · have : q = a := by simpa using h3
          refine Or.inr ⟨this ▸ List.mem_cons_self a rest, ?_⟩
          rw [this]
          exact Option.not_isSome_iff_eq_none.1 ha
      · have hp : logFind q.1 p = none := by
          rcases hh : logFind q.1 p with _ | w
          · rfl
          · exact absurd (logFind_append_some hh)
              (by rw [h2]; exact fun hhh => by cases hhh)
        exact Or.inr ⟨List.mem_cons_of_mem a h1, hp⟩

/-- The value map produced by rolling back one frame. -/
def restoredVal (f : Frame) (v : Nat → Int) : Nat → Int :=
  fun n => if logFind n f.log = none then v n else f.snap n

theorem lc_congr {v w : Nat → Int} {fs : List Frame} (h : ∀ n, v n = w n)
    (hlc : logsConsistent v fs) : logsConsistent w fs := by
  cases fs with
  | nil => trivial
  | cons f rest =>
    obtain ⟨h1, h2, h3⟩ := hlc
    exact ⟨h1, fun n hn => (h n).symm.trans (h2 n hn), h3⟩

theorem lc_enter {v : Nat → Int} {fs : List Frame} (h : logsConsistent v fs) :
    logsConsistent v ({ log := [], snap := v } :: fs) := by
  refine ⟨fun p hp => absurd hp (List.not_mem_nil p), fun n _ => rfl, h⟩

theorem lc_recordWrite (n : Nat) (v : Int) {val : Nat → Int} {f : Frame}
    {rest : List Frame} (hlc : logsConsistent val (f :: rest)) :
    logsConsistent (Function.update val n v)
      ((if (logFind n f.log).isSome then f
        else { f with log := f.log ++ [(n, val n)] }) :: rest) := by
  obtain ⟨h1, h2, h3⟩ := hlc
  by_cases hs : (logFind n f.log).isSome
  · rw [if_pos hs]
    refine ⟨h1, ?_, h3⟩
    intro m hm
    rw [Function.update_apply]
    by_cases hmn : m = n
    · exfalso
      rw [hmn] at hm
      rw [hm] at hs
      cases hs
    · rw [if_neg hmn]
      exact h2 m hm
  · rw [if_neg hs]
    have hnone : logFind n f.log = none := Option.not_isSome_iff_eq_none.1 hs
    refine ⟨?_, ?_, h3⟩
    · intro p hp
      rcases List.mem_append.1 hp with hp1 | hp1
      · exact h1 p hp1
      · have : p = (n, val n) := by simpa using hp1
        rw [this]
        exact h2 n hnone
    · intro m hm
      rw [Function.update_apply]
      by_cases hmn : m = n
      · exfalso
        rw [hmn] at hm
        rw [logFind_append_none hnone, logFind_cons, if_pos rfl] at hm
        cases hm
      · rw [if_neg hmn]
        refine h2 m ?_
        rcases hh : logFind m f.log with _ | w
        · rfl
        · rw [logFind_append_some hh] at hm
          cases hm

theorem lc_commitCore {v : Nat → Int} {f g : Frame} {rest : List Frame}
    (hlc : logsConsistent v (f :: g :: rest)) :
    logsConsistent v ({ g with log := mergeFS f.log g.log } :: rest) := by
  obtain ⟨hA, hB, hAg, hC, hrest⟩ := hlc
  refine ⟨?_, ?_, hrest⟩
  · intro p hp
    rcases mergeFS_mem hp with h1 | ⟨h1, h2⟩
    · exact hAg p h1
    · exact (hA p h1).trans (hC p.1 h2)
  · intro m hm
    show v m = g.snap m
    have hg : logFind m g.log = none := by
      rcases hh : logFind m g.log with _ | w
      · rfl
      · rw [logFind_mergeFS_some hh] at hm
        cases hm
    have hf : logFind m f.log = none := by
      rw [logFind_mergeFS_none hg] at hm
      exact hm
    exact (hB m hf).trans (hC m hg)

theorem lc_rollback {v : Nat → Int} {f : Frame} {rest : List Frame}
    (hlc : logsConsistent v (f :: rest)) :
    logsConsistent (restoredVal f v) rest := by
  obtain ⟨hA, hB, hrest⟩ := hlc
  cases rest with
  | nil => trivial
  | cons g rest2 =>
    obtain ⟨hAg, hC, hrest2⟩ := hrest
    refine ⟨hAg, ?_, hrest2⟩
    intro m hm
    unfold restoredVal
    by_cases hf : logFind m f.log = none
    · rw [if_pos hf]
      exact (hB m hf).trans (hC m hm)
    · rw [if_neg hf]
      exact hC m hm

theorem scopeStep_refl (s : St) : ScopeStep s s :=
  ⟨rfl, rfl, rfl, rfl, rfl, rfl, rfl, rfl, rfl, rfl, fun _ => rfl, fun h => h⟩

theorem scopeStep_trans {s t u : St} (h1 : ScopeStep s t) (h2 : ScopeStep t u) :
    ScopeStep s u := by
  refine ⟨h2.kindEq.trans h1.kindEq, h2.subsEq.trans h1.subsEq,
    h2.dispEq.trans h1.dispEq, h2.spawnEq.trans h1.spawnEq,
    h2.nodesEq.trans h1.nodesEq, h2.batchEq.trans h1.batchEq,
    h2.mutedEq.trans h1.mutedEq, h2.framesLen.trans h1.framesLen,
    h2.framesSnap.trans h1.framesSnap, h2.ranEq.trans h1.ranEq, ?_, ?_⟩
  · intro h
    exact (h2.microEq (h1.batchEq ▸ h)).trans (h1.microEq h)
  · intro h
    exact h2.lc (h1.lc h)

theorem quiet_scopeStep {s t : St} (h : Quiet s t) : ScopeStep s t := by
  refine ⟨h.kindEq, h.subsEq, h.dispEq, h.spawnEq, h.nodesEq, h.batchEq,
    h.mutedEq, by rw [h.framesEq], by rw [h.framesEq], h.ranEq,
    fun hb => h.microEq (Or.inl hb), ?_⟩
  intro hlc
  rw [h.framesEq, h.valueEq]
  exact hlc

theorem quiet_sameEnv {s t : St} (h : Quiet s t) : SameEnv s t :=
  ⟨h.kindEq, h.subsEq, h.dispEq, h.spawnEq, h.nodesEq, h.batchEq, h.mutedEq,
    h.framesEq, h.ranEq, h.writtenEq, h.microEq⟩

theorem sameEnv_refl (s : St) : SameEnv s s :=
  ⟨rfl, rfl, rfl, rfl, rfl, rfl, rfl, rfl, rfl, rfl, fun _ => rfl⟩

theorem sameEnv_trans {s t u : St} (h1 : SameEnv s t) (h2 : SameEnv t u) :
    SameEnv s u := by
  refine ⟨h2.kindEq.trans h1.kindEq, h2.subsEq.trans h1.subsEq,
    h2.dispEq.trans h1.dispEq, h2.spawnEq.trans h1.spawnEq,
    h2.nodesEq.trans h1.nodesEq, h2.batchEq.trans h1.batchEq,
    h2.mutedEq.trans h1.mutedEq, h2.framesEq.trans h1.framesEq,
    h2.ranEq.trans h1.ranEq, h2.writtenEq.trans h1.writtenEq, ?_⟩
  intro h
  exact (h2.microEq (by rw [h1.batchEq, h1.mutedEq]; exact h)).trans (h1.microEq h)

theorem recordAtomicWrite_frames_cons (n : Nat) (p : Int) (s : St) (f : Frame)
    (rest : List Frame) (hf : s.frames = f :: rest) :
    (recordAtomicWrite n p s).frames
      = (if (logFind n f.log).isSome then f
         else { f with log := f.log ++ [(n, p)] }) :: rest := by
  unfold recordAtomicWrite
  rw [hf]
  change (if (logFind n f.log).isSome = true then s
    else { s with frames := { f with log := f.log ++ [(n, p)] } :: rest }).frames = _
  by_cases hs : (logFind n f.log).isSome = true
  · rw [if_pos hs, if_pos hs]
    exact hf
  · rw [if_neg hs, if_neg hs]

theorem setSig_scope (n : Nat) (v : Int) (s : St) : ScopeStep s (setSig n v s) := by
  unfold setSig
  by_cases h : s.value n = v
  · rw [if_pos h]
    exact scopeStep_refl s
  · rw [if_neg h]
    set s1 := if s.frames.length > 0 then recordAtomicWrite n (s.value n) s
      else s with hs1
    set s2 : St := { s1 with value := Function.update s1.value n v,
                             written := s1.written ++ [n] } with hs2
    refine scopeStep_trans (t := s2) ?_
      (quiet_scopeStep ((markStale_quiet (s2.nodes.length + 1)).2 (s2.subsOf n) s2))
    have h1f := recordAtomicWrite_quietFields n (s.value n) s
    have h1v : s1.value = s.value := by
      rw [hs1]; split; exacts [recordAtomicWrite_value n (s.value n) s, rfl]
    have h1k : s1.kind = s.kind := by
      rw [hs1]; split; exacts [h1f.1, rfl]
    have h1sub : s1.subsOf = s.subsOf := by
      rw [hs1]; split; exacts [h1f.2.1, rfl]
    have h1d : s1.disposedOf = s.disposedOf := by
      rw [hs1]; split; exacts [h1f.2.2.1, rfl]
    have h1m : s1.muted = s.muted := by
      rw [hs1]; split; exacts [h1f.2.2.2.1, rfl]
    have h1n : s1.nodes = s.nodes := by
      rw [hs1]; split; exacts [h1f.2.2.2.2.2.2.1, rfl]
    have h1b : s1.batchDepth = s.batchDepth := by
      rw [hs1]; split; exacts [h1f.2.2.2.2.2.2.2.1, rfl]
    have h1mi : s1.micro = s.micro := by
      rw [hs1]; split; exacts [h1f.2.2.2.2.2.2.2.2.1, rfl]
    have h1sp : s1.spawn = s.spawn := by
      rw [hs1]; split; exacts [h1f.2.2.2.2.2.2.2.2.2.1, rfl]
    have h1ra : s1.ran = s.ran := by
      rw [hs1]; split; exacts [h1f.2.2.2.2.2.2.2.2.2.2.2.1, rfl]
    rcases hfr : s.frames with _ | ⟨f, rest⟩
    · have h1fr : s1.frames = [] := by
        rw [hs1, if_neg (by rw [hfr]; exact fun hh => by cases hh)]
        exact hfr
      refine ⟨by rw [hs2]; exact h1k, by rw [hs2]; exact h1sub,
        by rw [hs2]; exact h1d, by rw [hs2]; exact h1sp,
        by rw [hs2]; exact h1n, by rw [hs2]; exact h1b,
        by rw [hs2]; exact h1m, ?_, ?_, by rw [hs2]; exact h1ra,
        fun _ => by rw [hs2]; exact h1mi, ?_⟩
      · show s1.frames.length = s.frames.length
        rw [h1fr, hfr]
      · show s1.frames.map Frame.snap = s.frames.map Frame.snap
        rw [h1fr, hfr]
      · intro _
        show logsConsistent s2.value s1.frames
        rw [h1fr]
        trivial
    · have h1fr : s1.frames
          = (if (logFind n f.log).isSome then f
             else { f with log := f.log ++ [(n, s.value n)] }) :: rest := by
        rw [hs1, if_pos (by rw [hfr]; exact Nat.succ_pos _)]
        exact recordAtomicWrite_frames_cons n (s.value n) s f rest hfr
      have hsnap : (if (logFind n f.log).isSome then f
          else { f with log := f.log ++ [(n, s.value n)] }).snap = f.snap := by
        split <;> rfl
      refine ⟨by rw [hs2]; exact h1k, by rw [hs2]; exact h1sub,
        by rw [hs2]; exact h1d, by rw [hs2]; exact h1sp,
        by rw [hs2]; exact h1n, by rw [hs2]; exact h1b,
        by rw [hs2]; exact h1m, ?_, ?_, by rw [hs2]; exact h1ra,
        fun _ => by rw [hs2]; exact h1mi, ?_⟩
      · show s1.frames.length = s.frames.length
        rw [h1fr, hfr]
        rfl
      · show s1.frames.map Frame.snap = s.frames.map Frame.snap
        rw [h1fr, hfr, List.map_cons, List.map_cons, hsnap]
      · intro hlc
        show logsConsistent s2.value s1.frames
        rw [hfr] at hlc
        have : logsConsistent (Function.update s.value n v)
            ((if (logFind n f.log).isSome then f
              else { f with log := f.log ++ [(n, s.value n)] }) :: rest) :=
          lc_recordWrite n v hlc
        rw [h1fr]
        refine lc_congr ?_ this
        intro m
        show Function.update s.value n v m = Function.update s1.value n v m
        rw [h1v]

theorem rollbackFold_quiet (l : List Nat) (s : St) :
    Quiet s (l.foldl
      (fun acc sub => if acc.kind sub = .computed then markStale sub acc else acc) s) := by
  induction l generalizing s with
  | nil => exact quiet_refl s
  | cons sub rest ih =>
    rw [List.foldl_cons]
    refine quiet_trans ?_ (ih _)
    by_cases hk : s.kind sub = .computed
    · rw [if_pos hk]
      exact (markStale_quiet (s.nodes.length + 1)).1 sub s
    · rw [if_neg hk]
      exact quiet_refl s

theorem restoreEntry_quiet (p : Nat × Int) (s : St) :
    Quiet { s with value := Function.update s.value p.1 p.2 } (restoreEntry p s) := by
  unfold restoreEntry
  set s1 : St := { s with value := Function.update s.value p.1 p.2 } with hs1
  by_cases hk : s1.kind p.1 = .signal
  · rw [if_pos hk]
    exact rollbackFold_quiet (s1.subsOf p.1) s1
  · rw [if_neg hk]
    exact quiet_refl s1

theorem restoreEntry_env (p : Nat × Int) (s : St) :
    SameEnv s (restoreEntry p s) := by
  have h := quiet_sameEnv (restoreEntry_quiet p s)
  exact sameEnv_trans (⟨rfl, rfl, rfl, rfl, rfl, rfl, rfl, rfl, rfl, rfl,
    fun _ => rfl⟩ : SameEnv s { s with value := Function.update s.value p.1 p.2 }) h

theorem restoreEntry_value (p : Nat × Int) (s : St) :
    (restoreEntry p s).value = Function.update s.value p.1 p.2 :=
  (restoreEntry_quiet p s).valueEq

theorem restoreLog_env (log : List (Nat × Int)) : ∀ s : St,
    SameEnv s (restoreLog log s) := by
  induction log with
  | nil => exact fun s => sameEnv_refl s
  | cons p rest ih =>
    intro s
    show SameEnv s (List.foldl _ (restoreEntry p s) rest)
    exact sameEnv_trans (restoreEntry_env p s) (ih (restoreEntry p s))

theorem restoreLog_value (log : List (Nat × Int)) (σ : Nat → Int) :
    ∀ s : St, (∀ p ∈ log, p.2 = σ p.1) →
    ∀ n, (restoreLog log s).value n
      = if logFind n log = none then s.value n else σ n := by
  induction log with
  | nil =>
    intro s _ n
    rw [logFind_nil, if_pos rfl]
    rfl
  | cons p rest ih =>
    intro s hσ n
    have hval : (restoreEntry p s).value = Function.update s.value p.1 p.2 :=
      restoreEntry_value p s
    have hfin := ih (restoreEntry p s) (fun q hq => hσ q (List.mem_cons_of_mem p hq)) n
    show (restoreLog rest (restoreEntry p s)).value n = _
    rw [hfin, logFind_cons]
    by_cases hp : p.1 = n
    · rw [if_pos hp]
      have hval2 : (restoreEntry p s).value n = σ n := by
        rw [hval, ← hp, Function.update_same]
        exact hσ p (List.mem_cons_self p rest)
      by_cases hr : logFind n rest = none
      · rw [if_pos hr, hval2]
        have : ¬ (some p.2 = none) := fun hh => by cases hh
        rw [if_neg this]
      · rw [if_neg hr]
        have : ¬ (some p.2 = none) := fun hh => by cases hh
        rw [if_neg this]
    · rw [if_neg hp]
      have hval3 : (restoreEntry p s).value n = s.value n := by
        rw [hval, Function.update_apply, if_neg (fun hh => hp hh.symm)]
      by_cases hr : logFind n rest = none
      · rw [if_pos hr, if_pos hr, hval3]
      · rw [if_neg hr, if_neg hr]

theorem exitRollback_fields (s : St) (f : Frame) (rest : List Frame)
    (hf : s.frames = f :: rest) :
    (exitRollback s).frames = rest ∧
    (exitRollback s).queue = [] ∧
    (exitRollback s).scheduled = false ∧
    (exitRollback s).batchDepth = s.batchDepth - 1 ∧
    (exitRollback s).muted = s.muted ∧
    (exitRollback s).ran = s.ran ∧
    (exitRollback s).micro = s.micro ∧
    (exitRollback s).written = s.written ∧
    (exitRollback s).kind = s.kind ∧
    (exitRollback s).subsOf = s.subsOf ∧
    (exitRollback s).disposedOf = s.disposedOf ∧
    (exitRollback s).spawn = s.spawn ∧
    (exitRollback s).nodes = s.nodes := by
  unfold exitRollback
  rw [hf]
  set s1 : St := { s with frames := rest, muted := s.muted + 1 } with hs1
  have henv := restoreLog_env f.log s1
  have hmi : (restoreLog f.log s1).micro = s1.micro :=
    henv.microEq (Or.inr (by rw [hs1]; exact Nat.succ_pos _))
  refine ⟨henv.framesEq, rfl, rfl, ?_, ?_, henv.ranEq, hmi, henv.writtenEq,
    henv.kindEq, henv.subsEq, henv.dispEq, henv.spawnEq, henv.nodesEq⟩
  · show (restoreLog f.log s1).batchDepth - 1 = s.batchDepth - 1
    rw [henv.batchEq]
  · show (restoreLog f.log s1).muted - 1 = s.muted
    rw [henv.mutedEq]
    show s.muted + 1 - 1 = s.muted
    omega

theorem exitRollback_value (s : St) (f : Frame) (rest : List Frame)
    (hf : s.frames = f :: rest) (hA : ∀ p ∈ f.log, p.2 = f.snap p.1) :
    ∀ n, (exitRollback s).value n
      = if logFind n f.log = none then s.value n else f.snap n := by
  intro n
  unfold exitRollback
  rw [hf]
  set s1 : St := { s with frames := rest, muted := s.muted + 1 } with hs1
  show (restoreLog f.log s1).value n = _
  rw [restoreLog_value f.log f.snap s1 hA n]

theorem exitCommitCore_cons2 (s : St) (f g : Frame) (rest : List Frame)
    (hf : s.frames = f :: g :: rest) :
    (exitCommitCore s).frames = { g with log := mergeFS f.log g.log } :: rest ∧
    (exitCommitCore s).batchDepth = s.batchDepth - 1 ∧
    (exitCommitCore s).value = s.value ∧
    (exitCommitCore s).kind = s.kind ∧
    (exitCommitCore s).subsOf = s.subsOf ∧
    (exitCommitCore s).disposedOf = s.disposedOf ∧
    (exitCommitCore s).spawn = s.spawn ∧
    (exitCommitCore s).nodes = s.nodes ∧
    (exitCommitCore s).muted = s.muted ∧
    (exitCommitCore s).ran = s.ran ∧
    (exitCommitCore s).written = s.written ∧
    (exitCommitCore s).micro = s.micro ∧
    (exitCommitCore s).queue = s.queue ∧
    (exitCommitCore s).scheduled = s.scheduled := by
  unfold exitCommitCore
  rw [hf]
  exact ⟨rfl, rfl, rfl, rfl, rfl, rfl, rfl, rfl, rfl, rfl, rfl, rfl, rfl, rfl⟩

theorem exitCommit_noflush (s : St) (h : ¬ (exitCommitCore s).batchDepth = 0) :
    exitCommit s = (exitCommitCore s, none) := by
  unfold exitCommit
  rw [if_neg h]

theorem atomicEnter_frames (s : St) :
    (atomicEnter s).frames = { log := [], snap := s.value } :: s.frames := rfl

theorem scope_exitRollback {s t : St}
    (hIH : ScopeStep (atomicEnter s) t) : ScopeStep s (exitRollback t) := by
  have hlen : t.frames.length = s.frames.length + 1 := by
    rw [hIH.framesLen, atomicEnter_frames]
    rfl
  rcases hframes : t.frames with _ | ⟨f0, rest0⟩
  · rw [hframes] at hlen
    cases hlen
  · have hsnap : f0.snap :: rest0.map Frame.snap
        = s.value :: s.frames.map Frame.snap := by
      have := hIH.framesSnap
      rw [hframes, atomicEnter_frames] at this
      simpa using this
    have hsnap0 : f0.snap = s.value := (List.cons.injEq _ _ _ _ ▸ hsnap).1
    have hsnapRest : rest0.map Frame.snap = s.frames.map Frame.snap :=
      (List.cons.injEq _ _ _ _ ▸ hsnap).2
    have hfld := exitRollback_fields t f0 rest0 hframes
    refine ⟨?_, ?_, ?_, ?_, ?_, ?_, ?_, ?_, ?_, ?_, ?_, ?_⟩
    · exact hfld.2.2.2.2.2.2.2.2.1.trans hIH.kindEq
    · exact hfld.2.2.2.2.2.2.2.2.2.1.trans hIH.subsEq
    · exact hfld.2.2.2.2.2.2.2.2.2.2.1.trans hIH.dispEq
    · exact hfld.2.2.2.2.2.2.2.2.2.2.2.1.trans hIH.spawnEq
    · exact hfld.2.2.2.2.2.2.2.2.2.2.2.2.trans hIH.nodesEq
    · rw [hfld.2.2.2.1, hIH.batchEq]
      show s.batchDepth + 1 - 1 = s.batchDepth
      omega
    · exact hfld.2.2.2.2.1.trans hIH.mutedEq
    · rw [hfld.1]
      rw [hframes] at hlen
      simpa using Nat.succ_injective hlen
    · rw [hfld.1]
      exact hsnapRest
    · exact hfld.2.2.2.2.2.1.trans hIH.ranEq
    · intro _
      rw [hfld.2.2.2.2.2.2.1]
      exact hIH.microEq (by show 0 < s.batchDepth + 1; omega)
    · intro hlc
      have hlc1 : logsConsistent (atomicEnter s).value (atomicEnter s).frames := by
        rw [atomicEnter_frames]
        exact lc_enter hlc
      have hlct := hIH.lc hlc1
      rw [hframes] at hlct
      have hA : ∀ p ∈ f0.log, p.2 = f0.snap p.1 := hlct.1
      have hval := exitRollback_value t f0 rest0 hframes hA
      have hroll := lc_rollback hlct
      rw [hfld.1]
      refine lc_congr ?_ hroll
      intro m
      rw [hval m]
      rfl

theorem scope_exitCommit {s t : St} (hne : s.frames ≠ [])
    (hle : s.frames.length ≤ s.batchDepth)
    (hIH : ScopeStep (atomicEnter s) t) :
    ScopeStep s (exitCommit t).1 ∧ (exitCommit t).2 = none := by
  have hlen : t.frames.length = s.frames.length + 1 := by
    rw [hIH.framesLen, atomicEnter_frames]
    rfl
  rcases hframes : t.frames with _ | ⟨f0, rest0⟩
  · rw [hframes] at hlen
    cases hlen
  · rcases hrest : rest0 with _ | ⟨g0, rest1⟩
    · exfalso
      rw [hframes, hrest] at hlen
      have : s.frames.length = 0 := by simpa using hlen.symm
      exact hne (List.length_eq_zero.1 this)
    · rw [hrest] at hframes
      have hsnap : f0.snap :: g0.snap :: rest1.map Frame.snap
          = s.value :: s.frames.map Frame.snap := by
        have := hIH.framesSnap
        rw [hframes, atomicEnter_frames] at this
        simpa using this
      have hcc := exitCommitCore_cons2 t f0 g0 rest1 hframes
      have hbatch : (exitCommitCore t).batchDepth = s.batchDepth := by
        rw [hcc.2.1, hIH.batchEq]
        show s.batchDepth + 1 - 1 = _
        omega
      have hb0 : ¬ (exitCommitCore t).batchDepth = 0 := by
        rw [hbatch]
        have : 0 < s.frames.length := List.length_pos.2 hne
        omega
      rw [exitCommit_noflush t hb0]
      refine ⟨⟨?_, ?_, ?_, ?_, ?_, ?_, ?_, ?_, ?_, ?_, ?_, ?_⟩, rfl⟩
      · exact hcc.2.2.2.1.trans hIH.kindEq
      · exact hcc.2.2.2.2.1.trans hIH.subsEq
      · exact hcc.2.2.2.2.2.1.trans hIH.dispEq
      · exact hcc.2.2.2.2.2.2.1.trans hIH.spawnEq
      · exact hcc.2.2.2.2.2.2.2.1.trans hIH.nodesEq
      · exact hbatch
      · exact hcc.2.2.2.2.2.2.2.2.1.trans hIH.mutedEq
      · rw [hcc.1]
        rw [hframes] at hlen
        simpa using Nat.succ_injective hlen
      · rw [hcc.1]
        have htail := (List.cons.injEq _ _ _ _ ▸ hsnap).2
        simpa using htail
      · exact hcc.2.2.2.2.2.2.2.2.2.1.trans hIH.ranEq
      · intro _
        rw [hcc.2.2.2.2.2.2.2.2.2.2.2.1]
        exact hIH.microEq (by show 0 < s.batchDepth + 1; omega)
      · intro hlc
        have hlc1 : logsConsistent (atomicEnter s).value (atomicEnter s).frames := by
          rw [atomicEnter_frames]
          exact lc_enter hlc
        have hlct := hIH.lc hlc1
        rw [hframes] at hlct
        have := lc_commitCore hlct
        rw [hcc.1, hcc.2.2.1]
        exact this

theorem runAct_set (n : Nat) (u : Upd) (s : St) :
    runAct (.set n u) s = (setSigU n u s, none) := rfl

theorem runAct_schedule (j : Nat) (s : St) :
    runAct (.schedule j) s = (scheduleJob j s, none) := rfl

theorem runAct_atomicDo (body : List Act) (fail : Option Nat) (caught : Bool)
    (s : St) :
    runAct (.atomicDo body fail caught) s
      = (let p := runActs body (atomicEnter s)
         let q : St × Option SErr :=
           match p.2, fail with
           | some er, _ => (exitRollback p.1, some er)
           | none, some tag => (exitRollback p.1, some (.user tag))
           | none, none => exitCommit p.1
         if caught then (q.1, none) else q) := rfl

theorem runActs_nil (s : St) : runActs [] s = (s, none) := rfl

theorem runActs_cons (a : Act) (l : List Act) (s : St) :
    runActs (a :: l) s
      = (match (runAct a s).2 with
         | none => runActs l (runAct a s).1
         | some e => ((runAct a s).1, some e)) := rfl

mutual

theorem runAct_scope (a : Act) : ∀ s : St, s.frames ≠ [] →
    s.frames.length ≤ s.batchDepth → ScopeStep s (runAct a s).1 := by
  intro s hne hle
  cases a with
  | set n u =>
    rw [runAct_set]
    exact setSig_scope n (resolveUpd u (s.value n)) s
  | schedule j =>
    rw [runAct_schedule]
    exact quiet_scopeStep (scheduleJob_quiet j s)
  | atomicDo body fail caught =>
    rw [runAct_atomicDo]
    have h1ne : (atomicEnter s).frames ≠ [] := by
      rw [atomicEnter_frames]
      exact List.cons_ne_nil _ _
    have h1le : (atomicEnter s).frames.length ≤ (atomicEnter s).batchDepth := by
      rw [atomicEnter_frames]
      show s.frames.length + 1 ≤ s.batchDepth + 1
      omega
    have hIH := runActs_scope body (atomicEnter s) h1ne h1le
    rcases hq : (runActs body (atomicEnter s)).2 with _ | er
    · rcases fail with _ | tag
      · have hc := scope_exitCommit hne hle hIH
        by_cases hcg : caught = true
        · rw [hcg]
          show ScopeStep s
            ((match (runActs body (atomicEnter s)).2, (none : Option Nat) with
              | some er, _ => (exitRollback (runActs body (atomicEnter s)).1, some er)
              | none, some tag =>
                (exitRollback (runActs body (atomicEnter s)).1, some (.user tag))
              | none, none => exitCommit (runActs body (atomicEnter s)).1).1, none).1
          rw [hq]
          exact hc.1
        · have hcg2 : caught = false := by
            cases caught
            · rfl
            · exact absurd rfl hcg
          rw [hcg2]
          show ScopeStep s
            (match (runActs body (atomicEnter s)).2, (none : Option Nat) with
              | some er, _ => (exitRollback (runActs body (atomicEnter s)).1, some er)
              | none, some tag =>
                (exitRollback (runActs body (atomicEnter s)).1, some (.user tag))
              | none, none => exitCommit (runActs body (atomicEnter s)).1).1
          rw [hq]
          exact hc.1
      · have hr := scope_exitRollback hIH
        by_cases hcg : caught = true
        · rw [hcg]
          show ScopeStep s
            ((match (runActs body (atomicEnter s)).2, (some tag : Option Nat) with
              | some er, _ => (exitRollback (runActs body (atomicEnter s)).1, some er)
              | none, some tag =>
                (exitRollback (runActs body (atomicEnter s)).1, some (.user tag))
              | none, none => exitCommit (runActs body (atomicEnter s)).1).1, none).1
          rw [hq]
          exact hr
        · have hcg2 : caught = false := by
            cases caught
            · rfl
            · exact absurd rfl hcg
          rw [hcg2]
          show ScopeStep s
            (match (runActs body (atomicEnter s)).2, (some tag : Option Nat) with
              | some er, _ => (exitRollback (runActs body (atomicEnter s)).1, some er)
              | none, some tag =>
                (exitRollback (runActs body (atomicEnter s)).1, some (.user tag))
              | none, none => exitCommit (runActs body (atomicEnter s)).1).1
          rw [hq]
          exact hr
    · have hr := scope_exitRollback hIH
      by_cases hcg : caught = true
      · rw [hcg]
        show ScopeStep s
          ((match (runActs body (atomicEnter s)).2, fail with
            | some er, _ => (exitRollback (runActs body (atomicEnter s)).1, some er)
            | none, some tag =>
              (exitRollback (runActs body (atomicEnter s)).1, some (.user tag))
            | none, none => exitCommit (runActs body (atomicEnter s)).1).1, none).1
        rw [hq]
        exact hr
      · have hcg2 : caught = false := by
          cases caught
          · rfl
          · exact absurd rfl hcg
        rw [hcg2]
        show ScopeStep s
          (match (runActs body (atomicEnter s)).2, fail with
            | some er, _ => (exitRollback (runActs body (atomicEnter s)).1, some er)
            | none, some tag =>
              (exitRollback (runActs body (atomicEnter s)).1, some (.user tag))
            | none, none => exitCommit (runActs body (atomicEnter s)).1).1
        rw [hq]
        exact hr
termination_by sizeOf a

theorem runActs_scope (l : List Act) : ∀ s : St, s.frames ≠ [] →
    s.frames.length ≤ s.batchDepth → ScopeStep s (runActs l s).1 := by
  intro s hne hle
  cases l with
  | nil =>
    rw [runActs_nil]
    exact scopeStep_refl s
  | cons a rest =>
    rw [runActs_cons]
    have h1 := runAct_scope a s hne hle
    rcases hq : (runAct a s).2 with _ | e
    · show ScopeStep s (runActs rest (runAct a s).1).1
      have h2ne : (runAct a s).1.frames ≠ [] := by
        intro hnil
        rw [← h1.framesLen] at hle
        rw [hnil] at hle
        have : 0 < s.frames.length := List.length_pos.2 hne
        rw [← h1.framesLen, hnil] at this
        simp at this
      have h2le : (runAct a s).1.frames.length ≤ (runAct a s).1.batchDepth := by
        rw [h1.framesLen, h1.batchEq]
        exact hle
      exact scopeStep_trans h1 (runActs_scope rest (runAct a s).1 h2ne h2le)
    · show ScopeStep s ((runAct a s).1, some e).1
      exact h1
termination_by sizeOf l

end

theorem setSig_flat (n : Nat) (v : Int) (s : St) (f : Frame) (rest : List Frame)
    (hf : s.frames = f :: rest) :
    ∃ f2 : Frame, (setSig n v s).frames = f2 :: rest ∧ f2.snap = f.snap ∧
      (setSig n v s).batchDepth = s.batchDepth ∧
      (∀ m, logFind m f.log ≠ none → logFind m f2.log ≠ none) ∧
      (∀ m, m ∈ (setSig n v s).written →
        m ∈ s.written ∨ logFind m f2.log ≠ none) ∧
      (∀ m, m ∈ s.written → m ∈ (setSig n v s).written) := by
  unfold setSig
  by_cases h : s.value n = v
  · rw [if_pos h]
    exact ⟨f, hf, rfl, rfl, fun m hm => hm, fun m hm => Or.inl hm, fun m hm => hm⟩
  · rw [if_neg h]
    set fRec : Frame := if (logFind n f.log).isSome then f
      else { f with log := f.log ++ [(n, s.value n)] } with hfRec
    set s1 := if s.frames.length > 0 then recordAtomicWrite n (s.value n) s
      else s with hs1
    have h1fr : s1.frames = fRec :: rest := by
      rw [hs1, if_pos (by rw [hf]; exact Nat.succ_pos _)]
      exact recordAtomicWrite_frames_cons n (s.value n) s f rest hf
    have h1w : s1.written = s.written := by
      rw [hs1]
      split
      · exact (recordAtomicWrite_quietFields n (s.value n) s).2.2.2.2.2.2.2.2.2.2.1
      · rfl
    have h1b : s1.batchDepth = s.batchDepth := by
      rw [hs1]
      split
      · exact (recordAtomicWrite_quietFields n (s.value n) s).2.2.2.2.2.2.2.1
      · rfl
    set s2 : St := { s1 with value := Function.update s1.value n v,
                             written := s1.written ++ [n] } with hs2
    have hq := (markStale_quiet (s2.nodes.length + 1)).2 (s2.subsOf n) s2
    have hsnap : fRec.snap = f.snap := by
      rw [hfRec]
      split <;> rfl
    have hmono : ∀ m, logFind m f.log ≠ none → logFind m fRec.log ≠ none := by
      intro m hm
      rw [hfRec]
      split
      · exact hm
      · show logFind m (f.log ++ [(n, s.value n)]) ≠ none
        rcases hh : logFind m f.log with _ | w
        · exact absurd hh hm
        · rw [logFind_append_some hh]
          exact fun hc => by cases hc
    have hnIn : logFind n fRec.log ≠ none := by
      rw [hfRec]
      split
      · exact fun hc => by simp_all
      · show logFind n (f.log ++ [(n, s.value n)]) ≠ none
        rcases hh : logFind n f.log with _ | w
        · rw [logFind_append_none hh, logFind_cons, if_pos rfl]
          exact fun hc => by cases hc
        · rw [logFind_append_some hh]
          exact fun hc => by cases hc
    refine ⟨fRec, ?_, hsnap, ?_, hmono, ?_, ?_⟩
    · rw [hq.framesEq]
      show s1.frames = fRec :: rest
      exact h1fr
    · rw [hq.batchEq]
      show s1.batchDepth = s.batchDepth
      exact h1b
    · intro m hm
      rw [hq.writtenEq] at hm
      show _ ∨ _
      have : m ∈ s1.written ++ [n] := hm
      rcases List.mem_append.1 this with h2 | h2
      · rw [h1w] at h2
        exact Or.inl h2
      · have : m = n := by simpa using h2
        rw [this]
        exact Or.inr hnIn
    · intro m hm
      rw [hq.writtenEq]
      show m ∈ s1.written ++ [n]
      refine List.mem_append.2 (Or.inl ?_)
      rw [h1w]
      exact hm

theorem runActs_append (l1 l2 : List Act) : ∀ s : St,
    (runActs l1 s).2 = none →
    runActs (l1 ++ l2) s = runActs l2 (runActs l1 s).1 := by
  induction l1 with
  | nil =>
    intro s _
    rw [List.nil_append, runActs_nil]
  | cons a rest ih =>
    intro s h
    rw [runActs_cons] at h
    rw [List.cons_append, runActs_cons]
    rcases hq : (runAct a s).2 with _ | e
    · rw [hq] at h
      rw [ih (runAct a s).1 h]
      rw [runActs_cons, hq]
    · rw [hq] at h
      cases h

theorem runAct_atomicDo_commit_caught (a2 : List Act) (s : St)
    (hq : (runActs a2 (atomicEnter s)).2 = none)
    (hb : ¬ (exitCommitCore (runActs a2 (atomicEnter s)).1).batchDepth = 0) :
    runAct (.atomicDo a2 none true) s
      = (exitCommitCore (runActs a2 (atomicEnter s)).1, none) := by
  rw [runAct_atomicDo]
  show ((match (runActs a2 (atomicEnter s)).2, (none : Option Nat) with
        | some er, _ => (exitRollback (runActs a2 (atomicEnter s)).1, some er)
        | none, some tag =>
          (exitRollback (runActs a2 (atomicEnter s)).1, some (.user tag))
        | none, none => exitCommit (runActs a2 (atomicEnter s)).1).1, none) = _
  rw [hq]
  show ((exitCommit (runActs a2 (atomicEnter s)).1).1, none) = _
  rw [exitCommit_noflush _ hb]

theorem runActs_flat (l : List Act) (hfl : ∀ a ∈ l, a.isFlat = true) :
    ∀ (s : St) (f : Frame) (rest : List Frame), s.frames = f :: rest →
    ∃ f2 : Frame,
      (runActs l s).2 = none ∧
      (runActs l s).1.frames = f2 :: rest ∧
      f2.snap = f.snap ∧
      (runActs l s).1.batchDepth = s.batchDepth ∧
      (∀ m, logFind m f.log ≠ none → logFind m f2.log ≠ none) ∧
      (∀ m, m ∈ (runActs l s).1.written →
        m ∈ s.written ∨ logFind m f2.log ≠ none) ∧
      (∀ m, m ∈ s.written → m ∈ (runActs l s).1.written) := by
  induction l with
  | nil =>
    intro s f rest hf
    rw [runActs_nil]
    exact ⟨f, rfl, hf, rfl, rfl, fun m hm => hm, fun m hm => Or.inl hm,
      fun m hm => hm⟩
  | cons a rest0 ih =>
    intro s f rest hf
    have hstep : ∃ f1 : Frame, (runAct a s).2 = none ∧
        (runAct a s).1.frames = f1 :: rest ∧ f1.snap = f.snap ∧
        (runAct a s).1.batchDepth = s.batchDepth ∧
        (∀ m, logFind m f.log ≠ none → logFind m f1.log ≠ none) ∧
        (∀ m, m ∈ (runAct a s).1.written →
          m ∈ s.written ∨ logFind m f1.log ≠ none) ∧
        (∀ m, m ∈ s.written → m ∈ (runAct a s).1.written) := by
      cases a with
      | set n u =>
        rw [runAct_set]
        obtain ⟨f1, h1, h2, h3, h4, h5, h6⟩ :=
          setSig_flat n (resolveUpd u (s.value n)) s f rest hf
        exact ⟨f1, rfl, h1, h2, h3, h4, h5, h6⟩
      | schedule j =>
        rw [runAct_schedule]
        have hq := scheduleJob_quiet j s
        refine ⟨f, rfl, ?_, rfl, ?_, fun m hm => hm, ?_, ?_⟩
        · rw [hq.framesEq]
          exact hf
        · exact hq.batchEq
        · intro m hm
          rw [hq.writtenEq] at hm
          exact Or.inl hm
        · intro m hm
          rw [hq.writtenEq]
          exact hm
      | atomicDo b fl cg =>
        have hcontra := hfl _ (List.mem_cons_self _ _)
        exact absurd hcontra (by simp [Act.isFlat])
    obtain ⟨f1, he, hfr, hsn, hb, hmono, hwr, hsup⟩ := hstep
    obtain ⟨f2, ihe, ihfr, ihsn, ihb, ihmono, ihwr, ihsup⟩ :=
      ih (fun x hx => hfl x (List.mem_cons_of_mem a hx)) (runAct a s).1 f1 rest hfr
    have hred : runActs (a :: rest0) s = runActs rest0 (runAct a s).1 := by
      rw [runActs_cons, he]
    refine ⟨f2, ?_, ?_, ihsn.trans hsn, ?_, ?_, ?_, ?_⟩
    · rw [hred]
      exact ihe
    · rw [hred]
      exact ihfr
    · rw [hred, ihb]
      exact hb
    · intro m hm
      exact ihmono m (hmono m hm)
    · intro m hm
      rw [hred] at hm
      rcases ihwr m hm with h1 | h1
      · rcases hwr m h1 with h2 | h2
        · exact Or.inl h2
        · exact Or.inr (ihmono m h2)
      · exact Or.inr h1
    · intro m hm
      rw [hred]
      exact ihsup m (hsup m hm)

end Sched

/-- Claim C1: for `atomic(fn)` entered at rest (no enclosing atomic
scope) whose `fn` throws synchronously after running any client actions
(signal writes, effect schedules, nested atomic scopes), the scheduler
rolls back and rethrows: an error is rethrown (exactly `fn`'s own error
when the body completed), every node recorded in the scope's write log
holds its first-seen previous value — the value from before the scope
entered — and is restored to it (indeed every node's value is
restored), the job queue is empty, `scheduled` is false, no flush
happened (`ran` unchanged) and no flush microtask was ever enqueued
(`micro` unchanged), so no effect scheduled during the scope ever
runs; the log stack is empty again afterwards. -/
theorem atomic_throw_rollback (body : List Sched.Act) (tag : Nat)
    (s0 : Sched.St) (h0 : s0.frames = []) :
    (Sched.atomicFail body tag s0).2.isSome = true ∧
    ((Sched.runActs body (Sched.atomicEnter s0)).2 = none →
      (Sched.atomicFail body tag s0).2 = some (.user tag)) ∧
    (∀ n v1, Sched.logFind n (Sched.scopeLog body s0) = some v1 →
      v1 = s0.value n) ∧
    (∀ n, (Sched.atomicFail body tag s0).1.value n = s0.value n) ∧
    (Sched.atomicFail body tag s0).1.queue = [] ∧
    (Sched.atomicFail body tag s0).1.scheduled = false ∧
    (Sched.atomicFail body tag s0).1.ran = s0.ran ∧
    (Sched.atomicFail body tag s0).1.micro = s0.micro ∧
    (Sched.atomicFail body tag s0).1.frames = [] := by
  have h1f : (Sched.atomicEnter s0).frames = [{ log := [], snap := s0.value }] := by
    rw [Sched.atomicEnter_frames, h0]
  have h1ne : (Sched.atomicEnter s0).frames ≠ [] := by
    rw [h1f]
    exact List.cons_ne_nil _ _
  have h1le : (Sched.atomicEnter s0).frames.length
      ≤ (Sched.atomicEnter s0).batchDepth := by
    rw [h1f]
    show 1 ≤ s0.batchDepth + 1
    omega
  have hS := Sched.runActs_scope body (Sched.atomicEnter s0) h1ne h1le
  have hlc1 : Sched.logsConsistent (Sched.atomicEnter s0).value
      (Sched.atomicEnter s0).frames := by
    rw [h1f]
    exact ⟨fun p hp => absurd hp (List.not_mem_nil p), fun n _ => rfl, trivial⟩
  have hlcp := hS.lc hlc1
  have hlen : (Sched.runActs body (Sched.atomicEnter s0)).1.frames.length = 1 := by
    rw [hS.framesLen, h1f]
    rfl
  rcases hframes : (Sched.runActs body (Sched.atomicEnter s0)).1.frames
    with _ | ⟨f0, rest0⟩
  · rw [hframes] at hlen
    cases hlen
  · have hrest0 : rest0 = [] := by
      rw [hframes] at hlen
      simpa using Nat.succ_injective hlen
    rw [hrest0] at hframes
    have hsnap0 : f0.snap = s0.value := by
      have := hS.framesSnap
      rw [hframes, h1f] at this
      simpa using this
    rw [hframes] at hlcp
    have hA : ∀ p ∈ f0.log, p.2 = f0.snap p.1 := hlcp.1
    have hB : ∀ n, Sched.logFind n f0.log = none →
        (Sched.runActs body (Sched.atomicEnter s0)).1.value n = f0.snap n :=
      hlcp.2.1
    have hfld := Sched.exitRollback_fields _ f0 [] hframes
    have hval := Sched.exitRollback_value _ f0 [] hframes hA
    have hsl : Sched.scopeLog body s0 = f0.log := by
      unfold Sched.scopeLog
      rw [hframes]
    have hkey : Sched.atomicFail body tag s0
        = (match (Sched.runActs body (Sched.atomicEnter s0)).2 with
           | some er =>
             (Sched.exitRollback (Sched.runActs body (Sched.atomicEnter s0)).1,
              some er)
           | none =>
             (Sched.exitRollback (Sched.runActs body (Sched.atomicEnter s0)).1,
              some (Sched.SErr.user tag))) := rfl
    have hfail : (Sched.atomicFail body tag s0).1
        = Sched.exitRollback (Sched.runActs body (Sched.atomicEnter s0)).1 ∧
        (Sched.atomicFail body tag s0).2.isSome = true ∧
        ((Sched.runActs body (Sched.atomicEnter s0)).2 = none →
          (Sched.atomicFail body tag s0).2 = some (.user tag)) := by
      rcases hq : (Sched.runActs body (Sched.atomicEnter s0)).2 with _ | er
      · rw [hkey, hq]
        exact ⟨rfl, rfl, fun _ => rfl⟩
      · rw [hkey, hq]
        refine ⟨rfl, rfl, fun hcontra => ?_⟩
        cases hcontra
    refine ⟨hfail.2.1, hfail.2.2, ?_, ?_, ?_, ?_, ?_, ?_, ?_⟩
    · intro n v1 hfind
      rw [hsl] at hfind
      have h2 := hA (n, v1) (Sched.logFind_mem hfind)
      simp only [hsnap0] at h2
      exact h2
    · intro n
      rw [hfail.1, hval n]
      by_cases hn : Sched.logFind n f0.log = none
      · rw [if_pos hn]
        rw [hB n hn, hsnap0]
      · rw [if_neg hn, hsnap0]
    · rw [hfail.1]
      exact hfld.2.1
    · rw [hfail.1]
      exact hfld.2.2.1
    · rw [hfail.1, hfld.2.2.2.2.2.1, hS.ranEq]
      rfl
    · rw [hfail.1, hfld.2.2.2.2.2.2.1]
      rw [hS.microEq (by show 0 < s0.batchDepth + 1; omega)]
      rfl
    · rw [hfail.1]
      exact hfld.1

/-- Witness for `atomic_throw_rollback`: a concrete atomic scope that
writes a signal, schedules a job, and throws. -/
theorem atomic_throw_rollback_witness :
    Sched.baseState.frames = [] ∧
    (Sched.atomicFail [Sched.Act.set 1 (.val 5), Sched.Act.schedule 7] 9
      Sched.baseState).2.isSome = true ∧
    (∀ n, (Sched.atomicFail [Sched.Act.set 1 (.val 5), Sched.Act.schedule 7] 9
      Sched.baseState).1.value n = Sched.baseState.value n) ∧
    (Sched.atomicFail [Sched.Act.set 1 (.val 5), Sched.Act.schedule 7] 9
      Sched.baseState).1.queue = [] ∧
    (Sched.atomicFail [Sched.Act.set 1 (.val 5), Sched.Act.schedule 7] 9
      Sched.baseState).1.scheduled = false := by
  have h := atomic_throw_rollback [Sched.Act.set 1 (.val 5), Sched.Act.schedule 7]
    9 Sched.baseState rfl
  exact ⟨rfl, h.1, h.2.2.2.1, h.2.2.2.2.1, h.2.2.2.2.2.1⟩

/-- Claim C2: for a nested pair of atomic scopes where the inner scope
commits, the inner log is merged into the parent log first-seen-wins
(as `mergeChildIntoParent` does); hence every signal written anywhere
in the nested scope appears in the outermost log with the value it had
before the outermost scope entered, and rolling back the outermost
scope restores exactly those values (every node ends at its
pre-outermost-scope value). -/
theorem nested_atomic_commit_merge (a1 a2 a3 : List Sched.Act) (s0 : Sched.St)
    (h0 : s0.frames = [])
    (hf1 : ∀ a ∈ a1, a.isFlat = true)
    (hf2 : ∀ a ∈ a2, a.isFlat = true)
    (hf3 : ∀ a ∈ a3, a.isFlat = true) :
    (Sched.runActs (a1 ++ [Sched.Act.atomicDo a2 none true] ++ a3)
        (Sched.atomicEnter s0)).2 = none ∧
    (∀ n, n ∈ (Sched.runActs (a1 ++ [Sched.Act.atomicDo a2 none true] ++ a3)
          (Sched.atomicEnter s0)).1.written →
      n ∉ s0.written →
      Sched.logFind n
          (Sched.scopeLog (a1 ++ [Sched.Act.atomicDo a2 none true] ++ a3) s0)
        = some (s0.value n)) ∧
    (∀ n, (Sched.exitRollback
        (Sched.runActs (a1 ++ [Sched.Act.atomicDo a2 none true] ++ a3)
          (Sched.atomicEnter s0)).1).value n = s0.value n) := by
  set mid := Sched.Act.atomicDo a2 none true with hmiddef
  set s1 := Sched.atomicEnter s0 with hs1
  have h1f : s1.frames = [{ log := [], snap := s0.value }] := by
    rw [hs1, Sched.atomicEnter_frames, h0]
  obtain ⟨fA, eA, frA, snA, bA, _, wrA, supA⟩ :=
    Sched.runActs_flat a1 hf1 s1 { log := [], snap := s0.value } [] h1f
  set sA := (Sched.runActs a1 s1).1 with hsA
  have h2f : (Sched.atomicEnter sA).frames
      = { log := [], snap := sA.value } :: fA :: [] := by
    rw [Sched.atomicEnter_frames, frA]
  obtain ⟨fB, eB, frB, snB, bB, _, wrB, supB⟩ :=
    Sched.runActs_flat a2 hf2 (Sched.atomicEnter sA)
      { log := [], snap := sA.value } (fA :: []) h2f
  set sB := (Sched.runActs a2 (Sched.atomicEnter sA)).1 with hsB
  have hcc := Sched.exitCommitCore_cons2 sB fB fA [] frB
  have hbat1 : s1.batchDepth = s0.batchDepth + 1 := rfl
  have hbatB : sB.batchDepth = s0.batchDepth + 2 := by
    rw [bB]
    show sA.batchDepth + 1 = _
    rw [bA, hbat1]
  have hbne : ¬ (Sched.exitCommitCore sB).batchDepth = 0 := by
    rw [hcc.2.1, hbatB]
    omega
  have hmid : Sched.runAct mid sA = (Sched.exitCommitCore sB, none) := by
    rw [hmiddef]
    exact Sched.runAct_atomicDo_commit_caught a2 sA eB hbne
  set sC := Sched.exitCommitCore sB with hsC
  set fC : Sched.Frame := { fA with log := Sched.mergeFS fB.log fA.log } with hfC
  have frC : sC.frames = fC :: [] := hcc.1
  have hmid1 : Sched.runActs [mid] sA = (sC, none) := by
    rw [Sched.runActs_cons, hmid]
    show Sched.runActs [] sC = (sC, none)
    exact Sched.runActs_nil sC
  have hAB : Sched.runActs (a1 ++ [mid]) s1 = (sC, none) := by
    rw [Sched.runActs_append a1 [mid] s1 eA, ← hsA, hmid1]
  obtain ⟨fD, eC, frD, snD, bD, mnD, wrD, supD⟩ :=
    Sched.runActs_flat a3 hf3 sC fC [] frC
  have hFull : Sched.runActs ((a1 ++ [mid]) ++ a3) s1
      = Sched.runActs a3 sC := by
    rw [Sched.runActs_append (a1 ++ [mid]) a3 s1 (by rw [hAB]), hAB]
  set sD := (Sched.runActs a3 sC).1 with hsD
  have h1ne : s1.frames ≠ [] := by
    rw [h1f]
    exact List.cons_ne_nil _ _
  have h1le : s1.frames.length ≤ s1.batchDepth := by
    rw [h1f, hbat1]
    show 1 ≤ s0.batchDepth + 1
    omega
  have hS := Sched.runActs_scope ((a1 ++ [mid]) ++ a3) s1 h1ne h1le
  have hlc1 : Sched.logsConsistent s1.value s1.frames := by
    rw [h1f]
    exact ⟨fun p hp => absurd hp (List.not_mem_nil p), fun n _ => rfl, trivial⟩
  have hlcD : Sched.logsConsistent sD.value sD.frames := by
    have := hS.lc hlc1
    rw [hFull] at this
    exact this
  rw [frD] at hlcD
  have hAfD : ∀ p ∈ fD.log, p.2 = fD.snap p.1 := hlcD.1
  have hBfD : ∀ n, Sched.logFind n fD.log = none → sD.value n = fD.snap n :=
    hlcD.2.1
  have hsnapD : fD.snap = s0.value := by
    rw [snD, hfC]
    exact snA
  have hsl : Sched.scopeLog ((a1 ++ [mid]) ++ a3) s0 = fD.log := by
    unfold Sched.scopeLog
    rw [← hs1, hFull, ← hsD, frD]
  refine ⟨?_, ?_, ?_⟩
  · rw [hFull]
    exact eC
  · intro n hn hn0
    rw [hsl]
    rw [hFull] at hn
    have hdomD : Sched.logFind n fD.log ≠ none := by
      rcases wrD n hn with h1 | h1
      · have h2 : n ∈ sB.written := by
          have : sC.written = sB.written := hcc.2.2.2.2.2.2.2.2.2.2.1
          rw [← this]
          exact h1
        rcases wrB n h2 with h3 | h3
        · have h4 : n ∈ sA.written := h3
          rcases wrA n h4 with h5 | h5
          · exact absurd h5 hn0
          · refine mnD n ?_
            rw [hfC]
            show Sched.logFind n (Sched.mergeFS fB.log fA.log) ≠ none
            rcases hh : Sched.logFind n fA.log with _ | w
            · exact absurd hh h5
            · rw [Sched.logFind_mergeFS_some hh]
              exact fun hc => by cases hc
        · refine mnD n ?_
          rw [hfC]
          show Sched.logFind n (Sched.mergeFS fB.log fA.log) ≠ none
          rcases hh : Sched.logFind n fA.log with _ | w
          · rw [Sched.logFind_mergeFS_none hh]
            exact h3
          · rw [Sched.logFind_mergeFS_some hh]
            exact fun hc => by cases hc
      · exact h1
    rcases hfind : Sched.logFind n fD.log with _ | w
    · exact absurd hfind hdomD
    · have h2 := hAfD (n, w) (Sched.logFind_mem hfind)
      simp only [hsnapD] at h2
      rw [h2]
  · intro n
    rw [hFull]
    have hval := Sched.exitRollback_value sD fD [] frD hAfD
    rw [← hsD, hval n]
    by_cases hn : Sched.logFind n fD.log = none
    · rw [if_pos hn, hBfD n hn, hsnapD]
    · rw [if_neg hn, hsnapD]

/-- Witness for `nested_atomic_commit_merge`: concrete flat bodies
around a committed inner scope. -/
theorem nested_atomic_commit_merge_witness :
    Sched.baseState.frames = [] ∧
    (Sched.runActs
        ([Sched.Act.set 1 (.val 5)]
          ++ [Sched.Act.atomicDo [Sched.Act.set 2 (.val 7)] none true]
          ++ [Sched.Act.set 3 (.val 9)])
        (Sched.atomicEnter Sched.baseState)).2 = none ∧
    (∀ n, (Sched.exitRollback
        (Sched.runActs
          ([Sched.Act.set 1 (.val 5)]
            ++ [Sched.Act.atomicDo [Sched.Act.set 2 (.val 7)] none true]
            ++ [Sched.Act.set 3 (.val 9)])
          (Sched.atomicEnter Sched.baseState)).1).value n
      = Sched.baseState.value n) := by
  have h := nested_atomic_commit_merge [Sched.Act.set 1 (.val 5)]
    [Sched.Act.set 2 (.val 7)] [Sched.Act.set 3 (.val 9)] Sched.baseState rfl
    (fun a ha => by cases ha with
      | head => rfl
      | tail _ hh => cases hh)
    (fun a ha => by cases ha with
      | head => rfl
      | tail _ hh => cases hh)
    (fun a ha => by cases ha with
      | head => rfl
      | tail _ hh => cases hh)
  exact ⟨rfl, h.1, h.2.2⟩

/-- Witness for `flushJobs_drain_guard`: a one-job no-spawn flush. -/
theorem flushJobs_drain_guard_witness :
    ((∀ j, ({ Sched.baseState with queue := [3] } : Sched.St).spawn j = []) ∧
      (Sched.flushJobs { Sched.baseState with queue := [3] }).2 = none ∧
      (Sched.flushJobs { Sched.baseState with queue := [3] }).1.queue = [] ∧
      (Sched.flushJobs { Sched.baseState with queue := [3] }).1.scheduled = false) := by
  have h := flushJobs_drain_guard.2.2 { Sched.baseState with queue := [3] }
    (fun _ => rfl)
  exact ⟨fun _ => rfl, h⟩

end Reactivity
